import Mathlib

/-!
Shallow embedding, in Lean 4, of the search core of a UCI chess engine
written in Rust (transposition table, history heuristic, LMR table,
move ordering, evaluation, negamax driver with aspiration windows,
quiescence search, repetition-draw detection).

The board/move library (`cozy_chess`) is external to the verified core and
is modelled as an abstract oracle.  Machine integers are modelled as
`Nat`/`Int`; where two's-complement wrapping of `i16` matters it is made
explicit through `wrap16`, and saturating `i16` arithmetic through `satI16`.
Rust's truncating integer division is `Int.div`.  Fallible operations
(index `% 0`) are modelled with an explicit `RustResult`.
-/

set_option maxHeartbeats 1600000

namespace Engine

/-- Two's-complement wrap of an integer into the `i16` range
`[-32768, 32767]` (Rust release-mode overflow semantics). -/
def wrap16 (x : ℤ) : ℤ := (x + 32768) % 65536 - 32768

/-- Saturating clamp into the `i16` range (Rust `saturating_add` /
`saturating_sub` / `saturating_mul` are clamps of the exact result). -/
def satI16 (x : ℤ) : ℤ := max (-32768) (min 32767 x)

/-- Rust `/` on signed integers truncates toward zero. -/
def rustDiv (x y : ℤ) : ℤ := Int.tdiv x y

/-! ## Transposition table (src/transposition_table.rs) -/

/-- `NodeType` tag stored in a transposition-table entry. -/
inductive NodeType where
  | exact
  | upperBound
  | lowerBound
deriving DecidableEq

/-- `TTEntry`: hash, best move, value, depth and node type.  The move type
`M` is the opaque move type of the external board library. -/
structure TTEntry (M : Type) where
  hash : ℕ
  best_move : M
  best_value : ℤ
  depth : ℕ
  node_type : NodeType
deriving DecidableEq

/-- Result of a Rust computation that can panic (here: `% 0`). -/
inductive RustResult (α : Type) where
  | panicked
  | ok (val : α)
deriving DecidableEq

/-- The table is a vector of optionally present entries. -/
abbrev TranspositionTable (M : Type) := List (Option (TTEntry M))

/-- `TranspositionTable::new(bytes)`: `bytes / size_of::<Option<TTEntry>>()`
slots, all empty.  The slot size `entrySize` is a parameter: it is a fixed
positive constant determined by the Rust memory layout. -/
def ttNew (M : Type) (entrySize bytes : ℕ) : TranspositionTable M :=
  List.replicate (bytes / entrySize) none

/-- `TranspositionTable::get`: index `hash % len`, `filter` on exact hash
match.  With zero capacity the `%` panics. -/
def ttGet {M : Type} (t : TranspositionTable M) (h : ℕ) :
    RustResult (Option (TTEntry M)) :=
  if hl : t.length = 0 then .panicked
  else .ok (Option.filter (fun tte => tte.hash == h)
    (t.get ⟨h % t.length, Nat.mod_lt _ (Nat.pos_of_ne_zero hl)⟩))

/-- `TranspositionTable::set`: unconditional overwrite at `hash % len`
(always-replace).  With zero capacity the `%` panics. -/
def ttSet {M : Type} (t : TranspositionTable M) (h : ℕ) (e : TTEntry M) :
    RustResult (TranspositionTable M) :=
  if t.length = 0 then .panicked
  else .ok (t.set (h % t.length) (some e))

/-- `TranspositionTable::clear`: every slot reset to `None`. -/
def ttClear {M : Type} (t : TranspositionTable M) : TranspositionTable M :=
  t.map (fun _ => none)

/-- Total wrapper around `ttGet` used inside the searcher embedding.  A
zero-capacity table makes the Rust searcher panic at this call site; the
wrapper returns `none` there instead (see the C10 analysis for the panic
itself), which only widens the set of states the searcher theorems cover. -/
def ttGetT {M : Type} (t : TranspositionTable M) (h : ℕ) : Option (TTEntry M) :=
  match ttGet t h with
  | .ok v => v
  | .panicked => none

/-- Total wrapper around `ttSet`, same remark as `ttGetT`. -/
def ttSetT {M : Type} (t : TranspositionTable M) (h : ℕ) (e : TTEntry M) :
    TranspositionTable M :=
  match ttSet t h e with
  | .ok t' => t'
  | .panicked => t

/-! ## History table (src/history.rs) -/

/-- `HISTORY_LIMIT = i16::MAX / 2`. -/
def HISTORY_LIMIT : ℤ := 16383

/-- `[i16; 12 * 64]`, indexed by `(color*6 + piece)*64 + to_square`. -/
abbrev HistoryTable := Fin 768 → ℤ

/-- Fresh (all-zero) table, as built by `HistoryTable::new`. -/
def historyFresh : HistoryTable := fun _ => 0

/-- `history_delta(depth) = depth*depth + depth`, computed in `i16`
arithmetic (each operation wraps). -/
def historyDelta (d : ℤ) : ℤ := wrap16 (wrap16 (d * d) + d)

/-- `HistoryTable::normalize`: halve every entry (`/= 2`, truncating). -/
def historyNormalize (t : HistoryTable) : HistoryTable :=
  fun i => rustDiv (t i) 2

/-- `HistoryTable::update`: add the delta to the indexed entry (wrapping
`i16` addition); if the updated entry reaches `HISTORY_LIMIT`, halve every
entry of the table. -/
def historyUpdate (t : HistoryTable) (idx : Fin 768) (depth : ℕ) : HistoryTable :=
  let entry := wrap16 (t idx + historyDelta (depth : ℤ))
  let t' : HistoryTable := fun j => if j = idx then entry else t j
  if HISTORY_LIMIT ≤ entry then historyNormalize t' else t'

/-- `HistoryTable::clear`. -/
def historyClear : HistoryTable := fun _ => 0

/-- An abstract operation on the history table.  `update` carries the
table index determined by `(board, mv)` and the `u8` search depth. -/
inductive HistOp where
  | update (idx : Fin 768) (depth : Fin 256)
  | normalize
  | clear

/-- Apply one operation. -/
def histApplyOp (t : HistoryTable) : HistOp → HistoryTable
  | .update idx d => historyUpdate t idx d.val
  | .normalize => historyNormalize t
  | .clear => historyClear

/-- Apply a sequence of operations to a fresh table. -/
def histApply (ops : List HistOp) : HistoryTable :=
  ops.foldl histApplyOp historyFresh

/-! ## LMR table (src/lmr_table.rs)

The source fills a `[[Depth; 64]; 64]` array with
`(LMR_BASE + ln(depth.max(1)) * ln(move_num.max(1)) / LMR_DIVISOR) as Depth`
where `LMR_BASE = 0.75` and `LMR_DIVISOR = 2.25`.  The `f64` arithmetic is
modelled over `ℝ`; every quantity compared against an integer in this
development lies at distance ≥ 0.07 from it, far beyond the rounding error
of this `f64` expression, so the idealisation does not affect any result. -/

/-- Rust `as u8` cast from `f64`: saturate into `[0, 255]`, truncating
toward zero (the values cast here are nonnegative, so this is a floor). -/
noncomputable def f64ToU8 (x : ℝ) : ℕ := (min 255 (max 0 ⌊x⌋)).toNat

/-- The `f64` expression assigned to `table[move_num][depth]`. -/
noncomputable def lmrRaw (moveNum depth : ℕ) : ℝ :=
  0.75 + Real.log (max 1 depth : ℕ) * Real.log (max 1 moveNum : ℕ) / 2.25

/-- One entry of the constructed table. -/
noncomputable def lmrEntry (moveNum depth : ℕ) : ℕ := f64ToU8 (lmrRaw moveNum depth)

/-- `LMRTable::get(depth, move_num)`: both indices clamped to `≤ 63`. -/
noncomputable def lmrGet (depth : ℕ) (moveNum : ℕ) : ℕ :=
  lmrEntry (min moveNum 63) (min depth 63)

/-! ## Evaluation (src/evaluate.rs) -/

/-- `cozy_chess::Color`. -/
inductive Color where
  | white
  | black
deriving DecidableEq

/-- `!color`. -/
def Color.flip : Color → Color
  | .white => .black
  | .black => .white

/-- `cozy_chess::Piece`, in discriminant order. -/
inductive Piece where
  | pawn
  | knight
  | bishop
  | rook
  | queen
  | king
deriving DecidableEq

/-- `piece as usize`. -/
def Piece.idx : Piece → ℕ
  | .pawn => 0
  | .knight => 1
  | .bishop => 2
  | .rook => 3
  | .queen => 4
  | .king => 5

/-- `PIECE_VALUES = [100, 250, 300, 500, 900, 10000]`. -/
def PIECE_VALUES : Piece → ℤ
  | .pawn => 100
  | .knight => 250
  | .bishop => 300
  | .rook => 500
  | .queen => 900
  | .king => 10000

/-- The persisted piece-square-table data of `psqts.rs` (not part of the
verified core; data, not logic).  The evaluation theorems are generic in it. -/
structure PSQTData where
  mgValue : Piece → ℤ
  egValue : Piece → ℤ
  mgTable : ℕ → ℤ
  egTable : ℕ → ℤ
  phaseInc : Piece → ℤ

/-- Modelled from the spec: `GAME_PHASE_INC = [0,1,1,2,4,0]` (the constant
lives in the missing `psqts.rs`; the spec states its value). -/
def GAME_PHASE_INC : Piece → ℤ
  | .pawn => 0
  | .knight => 1
  | .bishop => 1
  | .rook => 2
  | .queen => 4
  | .king => 0

/-- The part of a board the evaluator observes: side to move and the
optional (piece, color) on each of the 64 squares (square `i` is
`cozy_chess` square index `i`: rank-major from a1). -/
structure EvalBoard where
  stm : Color
  pieceAt : Fin 64 → Option (Piece × Color)

/-- The PSQT index: square XOR-flipped by `0b111_000` for White, plus
`piece * 64`. -/
def tbIdx (p : Piece) (c : Color) (sq : Fin 64) : ℕ :=
  (if c = Color.white then sq.val ^^^ 56 else sq.val) + p.idx * 64

/-- Middlegame accumulator `mg[c]`. -/
def mgSide (P : PSQTData) (b : EvalBoard) (c : Color) : ℤ :=
  ∑ sq : Fin 64,
    match b.pieceAt sq with
    | some (p, pc) => if pc = c then P.mgValue p + P.mgTable (tbIdx p pc sq) else 0
    | none => 0

/-- Endgame accumulator `eg[c]`. -/
def egSide (P : PSQTData) (b : EvalBoard) (c : Color) : ℤ :=
  ∑ sq : Fin 64,
    match b.pieceAt sq with
    | some (p, pc) => if pc = c then P.egValue p + P.egTable (tbIdx p pc sq) else 0
    | none => 0

/-- `game_phase`: sum of the per-piece phase increments. -/
def gamePhase (P : PSQTData) (b : EvalBoard) : ℤ :=
  ∑ sq : Fin 64,
    match b.pieceAt sq with
    | some (p, _) => P.phaseInc p
    | none => 0

/-- The tapered score before the final `as Value` cast (`i32` arithmetic,
truncating division by 24). -/
def evalScore32 (P : PSQTData) (b : EvalBoard) : ℤ :=
  let mgEval := mgSide P b b.stm - mgSide P b b.stm.flip
  let egEval := egSide P b b.stm - egSide P b b.stm.flip
  let mgPhase := min (gamePhase P b) 24
  let egPhase := 24 - mgPhase
  rustDiv (mgEval * mgPhase + egEval * egPhase) 24

/-- `evaluate(board)`: the tapered score cast to `Value = i16`. -/
def evaluate (P : PSQTData) (b : EvalBoard) : ℤ := wrap16 (evalScore32 P b)

/-- Vertical flip of a square (`sq ^^^ 0b111_000`). -/
def sqFlip (sq : Fin 64) : Fin 64 :=
  ⟨sq.val ^^^ 56, by revert sq; decide⟩

/-- The mirrored board: every piece moved to the vertically flipped square
with its color swapped, and the side to move swapped. -/
def mirrorBoard (b : EvalBoard) : EvalBoard where
  stm := b.stm.flip
  pieceAt := fun sq => (b.pieceAt (sqFlip sq)).map (fun pc => (pc.1, pc.2.flip))

/-- Swap only the side to move, keeping the placement. -/
def flipStm (b : EvalBoard) : EvalBoard where
  stm := b.stm.flip
  pieceAt := b.pieceAt

/-! ## Move ordering (src/move_ordering.rs, `ComprehensiveMoveCollector`) -/

/-- `cozy_chess::Move`: from-square, to-square, optional promotion piece.
(`from`/`to` are Lean keywords, hence `mfrom`/`mto`.) -/
structure MoveR where
  mfrom : ℕ
  mto : ℕ
  promo : Option Piece
deriving DecidableEq

instance : Inhabited MoveR := ⟨⟨0, 0, none⟩⟩

/-- `utils::NULL_MOVE` (from == to == a1, no promotion). -/
def NULL_MOVE : MoveR := ⟨0, 0, none⟩

/-- The board as observed by the move-ordering code: the legal moves
grouped by origin square exactly as `generate_moves` emits them, the
enemy-color occupancy mask, and the piece/color on each square. -/
structure OBoard where
  groups : List (ℕ × List MoveR)
  enemy : ℕ → Bool
  pieceOn : ℕ → Option Piece
  colorOn : ℕ → Option Color

/-- All legal moves in generation order. -/
def allMovesList (b : OBoard) : List MoveR := (b.groups.map Prod.snd).flatten

/-- Modelled from the spec: `evaluate::piece_value` is not under `src/`
(only its callers are); the spec's MVV-LVA description uses the
`PIECE_VALUES` material table (§4.1, §4.4). -/
def pieceValue (p : Piece) : ℤ := PIECE_VALUES p

/-- `color as usize`. -/
def Color.idx : Color → ℕ
  | .white => 0
  | .black => 1

/-- Modelled from the spec: `utils::get_history_index` is not under `src/`;
the spec (§3) gives the indexing `(color*6 + piece)*64 + to_square`, which
also matches `history::history_index` in `src/history.rs`. -/
def getHistoryIndex (p : Piece) (c : Color) (dst : ℕ) : ℕ :=
  (c.idx * 6 + p.idx) * 64 + dst

/-- `usize::MAX`, the priority given to the killer move. -/
def USIZE_MAX : ℕ := 18446744073709551615

/-- `noncaptures.push(x)` followed by `noncaptures.swap(len-1, 0)`:
the new element goes to the front, the previous front to the back. -/
def pushSwapFront {α : Type} (l : List α) (x : α) : List α :=
  match l with
  | [] => [x]
  | y :: rest => x :: (rest ++ [y])

/-- Accumulator state while `ComprehensiveMoveCollector::new` scans the
generated moves: positive captures, negative captures, noncaptures. -/
abbrev CMCAcc := List (MoveR × (ℤ × ℤ)) × List (MoveR × (ℤ × ℤ)) × List (MoveR × ℕ)

/-- One iteration of the move loop in `ComprehensiveMoveCollector::new`:
an enemy-occupied destination is a capture, split by MVV-LVA sign; the
killer noncapture is swapped to the front; other noncaptures carry their
history score. -/
def collectMove (b : OBoard) (killer : MoveR) (history : ℕ → ℕ)
    (srcPiece : Piece) (srcColor : Color) (srcEval : ℤ)
    (acc : CMCAcc) (mv : MoveR) : CMCAcc :=
  if b.enemy mv.mto then
    let tgtEval := pieceValue ((b.pieceOn mv.mto).getD Piece.pawn)
    if srcEval ≤ tgtEval then (acc.1 ++ [(mv, (tgtEval, srcEval))], acc.2.1, acc.2.2)
    else (acc.1, acc.2.1 ++ [(mv, (tgtEval, srcEval))], acc.2.2)
  else if mv = killer then (acc.1, acc.2.1, pushSwapFront acc.2.2 (mv, USIZE_MAX))
  else (acc.1, acc.2.1,
    acc.2.2 ++ [(mv, history (getHistoryIndex srcPiece srcColor mv.mto))])

/-- Process the moves of one `generate_moves` group (one origin square). -/
def collectGroup (b : OBoard) (killer : MoveR) (history : ℕ → ℕ)
    (acc : CMCAcc) (g : ℕ × List MoveR) : CMCAcc :=
  let srcPiece := (b.pieceOn g.1).getD Piece.pawn
  let srcColor := (b.colorOn g.1).getD Color.white
  let srcEval := pieceValue srcPiece
  g.2.foldl (collectMove b killer history srcPiece srcColor srcEval) acc

/-- The moves held in the three buckets of an accumulator, positive
captures first, then negative captures, then noncaptures. -/
def accMoves (acc : CMCAcc) : List MoveR :=
  acc.1.map Prod.fst ++ acc.2.1.map Prod.fst ++ acc.2.2.map Prod.fst

/-- `ComprehensiveMoveCollector`. -/
structure CMC where
  ttmove : Option MoveR
  ttmove_capture : Bool
  poscaptures : List (MoveR × (ℤ × ℤ))
  negcaptures : List (MoveR × (ℤ × ℤ))
  noncaptures : List (MoveR × ℕ)

/-- `ComprehensiveMoveCollector::new`. -/
def cmcNew (b : OBoard) (killer : MoveR) (history : ℕ → ℕ)
    (ttmove : Option MoveR) : CMC :=
  let acc := b.groups.foldl (collectGroup b killer history) ([], [], [])
  { ttmove := ttmove
    ttmove_capture :=
      match ttmove with
      | some mv => decide (mv ∈ allMovesList b) && b.enemy mv.mto
      | none => false
    poscaptures := acc.1
    negcaptures := acc.2.1
    noncaptures := acc.2.2 }

/-- `Vec::swap(i, j)` on a list (for the in-range indices used here). -/
def listSwap {α : Type} [Inhabited α] (l : List α) (i j : ℕ) : List α :=
  (l.set i (l.getD j default)).set j (l.getD i default)

/-- The body of `move_eval_selection_sort_iter`'s `while` loop from index
`i` on: when a higher priority is found the source swaps the two slots
twice (`swap(i, cur); swap(i, cur)`), which is the identity. -/
def selPassGo {α P : Type} [Inhabited α] [Inhabited P]
    (gt : P → P → Bool) (l : List (α × P)) (cur i : ℕ) : List (α × P) :=
  if h : i < l.length then
    let l' :=
      if gt (l.getD i default).2 (l.getD cur default).2 then
        listSwap (listSwap l i cur) i cur
      else l
    selPassGo gt l' cur (i + 1)
  else l
termination_by l.length - i
decreasing_by
  split
  · simp only [listSwap, List.length_set]; omega
  · omega

/-- One call of `move_eval_selection_sort_iter(move_evals, cur)`: run the
pass, yielding the updated buffer; the returned move is `buffer[cur].0`. -/
def selPass {α P : Type} [Inhabited α] [Inhabited P]
    (gt : P → P → Bool) (l : List (α × P)) (cur : ℕ) : List (α × P) :=
  selPassGo gt l cur (cur + 1)

/-- Rust's derived lexicographic `>` on `(i32, i32)`. -/
def lexGtZZ (a b : ℤ × ℤ) : Bool :=
  decide (b.1 < a.1) || (decide (a.1 = b.1) && decide (b.2 < a.2))

/-- `ComprehensiveMoveIterator`. -/
structure CMIState where
  col : CMC
  done_ttmove : Bool
  poscapture_cur : ℕ
  negcapture_cur : ℕ
  noncapture_cur : ℕ

/-- `ComprehensiveMoveIterator::next`. -/
def cmiNext (st : CMIState) : Option ((Bool × MoveR) × CMIState) :=
  if st.done_ttmove = false then
    some ((st.col.ttmove_capture, st.col.ttmove.getD default),
      { st with done_ttmove := true })
  else if st.poscapture_cur < st.col.poscaptures.length then
    let l' := selPass lexGtZZ st.col.poscaptures st.poscapture_cur
    some ((true, (l'.getD st.poscapture_cur default).1),
      { st with col := { st.col with poscaptures := l' },
                poscapture_cur := st.poscapture_cur + 1 })
  else if st.noncapture_cur < st.col.noncaptures.length then
    let l' := selPass (fun a b : ℕ => decide (b < a)) st.col.noncaptures st.noncapture_cur
    some ((false, (l'.getD st.noncapture_cur default).1),
      { st with col := { st.col with noncaptures := l' },
                noncapture_cur := st.noncapture_cur + 1 })
  else if st.negcapture_cur < st.col.negcaptures.length then
    let l' := selPass lexGtZZ st.col.negcaptures st.negcapture_cur
    some ((true, (l'.getD st.negcapture_cur default).1),
      { st with col := { st.col with negcaptures := l' },
                negcapture_cur := st.negcapture_cur + 1 })
  else none

/-- Drive the iterator to completion (`fuel` bounds the number of `next`
calls; the initial fuel below is one more than the total element count, so
the iterator is exhausted). -/
def cmiRun : ℕ → CMIState → List (Bool × MoveR)
  | 0, _ => []
  | fuel + 1, st =>
    match cmiNext st with
    | none => []
    | some (y, st') => y :: cmiRun fuel st'

/-- `IntoIterator for ComprehensiveMoveCollector` followed by a full drain:
the complete sequence of `(is_capture, move)` pairs the iterator yields. -/
def cmcYields (b : OBoard) (killer : MoveR) (history : ℕ → ℕ)
    (ttmove : Option MoveR) : List (Bool × MoveR) :=
  let c := cmcNew b killer history ttmove
  cmiRun (1 + c.poscaptures.length + c.noncaptures.length + c.negcaptures.length)
    { col := c
      done_ttmove := c.ttmove.isNone
      poscapture_cur := 0
      negcapture_cur := 0
      noncapture_cur := 0 }

/-! ## Searcher (src/search.rs) -/

/-- `cozy_chess::GameStatus`. -/
inductive GStatus where
  | ongoing
  | won
  | drawn
deriving DecidableEq

/-- `MATE_VALUE = PIECE_VALUES[Piece::King] = 10000`. -/
def MATE_VALUE : ℤ := 10000

/-- `SCORE_INF = Value::MAX = i16::MAX`. -/
def SCORE_INF : ℤ := 32767

/-- The legal-move/board library (`cozy_chess`) is external to the verified
core (spec §1, §6) and is modelled as an abstract oracle.  `capMeasure` /
`capDec` record the fact — true of chess, where a capture removes a man —
that playing a generated capture strictly decreases a natural measure,
which bounds the quiescence recursion. -/
structure Oracle (B M : Type) where
  hash : B → ℕ
  halfmove : B → ℕ
  status : B → GStatus
  checkersEmpty : B → Bool
  nullMove : B → Option B
  play : B → M → B
  evalFn : B → ℤ
  isPromo : M → Bool
  nullM : M
  histIdx : B → M → Fin 768
  allMoves : B → M → Option M → HistoryTable → List (M × Bool)
  captureMoves : B → List (M × Bool)
  capMeasure : B → ℕ
  capDec : ∀ b m c, (m, c) ∈ captureMoves b → capMeasure (play b m) < capMeasure b
  uciToKxr : B → M → M

/-- The searcher-owned state: the `Searcher` fields (the `lmr` field is the
precomputed LMR table, carried as data) together with the visited-node
counter of `SearchStats`, which the searcher threads through. -/
structure SState (M : Type) where
  tt : TranspositionTable M
  board_history : List ℕ
  stop_search : Bool
  history : HistoryTable
  killers : ℕ → Option M
  lmr : ℕ → ℕ → ℕ
  best_move : M
  ply : ℕ
  nodes : ℕ

/-- `Iterator::step_by(2)`: every second element, starting with the first. -/
def stepBy2 {α : Type} : List α → List α
  | [] => []
  | [x] => [x]
  | x :: _ :: rest => x :: stepBy2 rest

/-- The counting loop of `is_repetition_draw`: `true` as soon as the second
match is seen. -/
def repCountLoop (target : ℕ) : List ℕ → ℕ → Bool
  | [], _ => false
  | x :: rest, cnt =>
    if x = target then
      if 2 ≤ cnt + 1 then true else repCountLoop target rest (cnt + 1)
    else repCountLoop target rest cnt

/-- `Searcher::is_repetition_draw(halfmove_count, board_hash)`: scan the
history newest-to-oldest, restricted to the most recent `halfmove_count`
entries, skipping the first and stepping by 2. -/
def isRepetitionDraw (hist : List ℕ) (halfmoveCount : ℕ) (boardHash : ℕ) : Bool :=
  if halfmoveCount < 4 then false
  else repCountLoop boardHash (stepBy2 (((hist.reverse).take halfmoveCount).drop 1)) 0

/-- `Searcher::push_board_hash`. -/
def pushBoardHash {M : Type} (h : ℕ) (s : SState M) : SState M :=
  { s with board_history := s.board_history ++ [h], ply := s.ply + 1 }

/-- `Searcher::pop_board_hash`. -/
def popBoardHash {M : Type} (s : SState M) : SState M :=
  { s with board_history := s.board_history.dropLast, ply := s.ply - 1 }

/-- The transposition-table probe of `search_internal`: either an early
return value (`Sum.inl`) or the updated `(alpha, beta, tt_move,
static_eval)` tuple. -/
def ttStep {M : Type} (ttRes : Option (TTEntry M)) (ply depth : ℕ)
    (alpha beta : ℤ) (nullMv : M) (evalValue : ℤ) : ℤ ⊕ (ℤ × ℤ × M × ℤ) :=
  match ttRes with
  | some tte =>
    if 0 < ply ∧ depth ≤ tte.depth then
      match tte.node_type with
      | .exact => .inl tte.best_value
      | .lowerBound =>
        let alpha' := max alpha tte.best_value
        if beta ≤ alpha' then .inl tte.best_value
        else .inr (alpha', beta, tte.best_move, tte.best_value)
      | .upperBound =>
        let beta' := min beta tte.best_value
        if beta' ≤ alpha then .inl tte.best_value
        else .inr (alpha, beta', tte.best_move, tte.best_value)
    else .inr (alpha, beta, tte.best_move, tte.best_value)
  | none => .inr (alpha, beta, nullMv, evalValue)

mutual

/-- `qsearch(board, alpha, beta)`: fail-soft quiescence search over
captures only. -/
def qsearch {B M : Type} (O : Oracle B M) (timer : ℕ → Bool) (b : B)
    (alpha beta : ℤ) (s : SState M) : ℤ × SState M :=
  let s1 : SState M := { s with nodes := s.nodes + 1 }
  if s1.nodes % 1024 = 0 ∧ timer s1.nodes then (0, s1)
  else
    let standPat := O.evalFn b
    if beta ≤ standPat then (standPat, s1)
    else
      qsearchLoop O timer b beta (O.captureMoves b) (List.Subset.refl _)
        (max alpha standPat) standPat s1
termination_by (O.capMeasure b, 1, 0)
decreasing_by
  exact Prod.Lex.right _ (Prod.Lex.left _ _ (by omega))

/-- The capture loop of `qsearch`. -/
def qsearchLoop {B M : Type} (O : Oracle B M) (timer : ℕ → Bool) (b : B)
    (beta : ℤ) (ms : List (M × Bool)) (hms : ms ⊆ O.captureMoves b)
    (alpha best : ℤ) (s : SState M) : ℤ × SState M :=
  match ms, hms with
  | [], _ => (best, s)
  | (mv, c) :: rest, hms =>
    let child := O.play b mv
    let r := qsearch O timer child (-beta) (-alpha) s
    let v := -r.1
    let best' := max best v
    let alpha' := max alpha v
    if beta ≤ alpha' then (alpha', r.2)
    else
      qsearchLoop O timer b beta rest
        (fun x hx => hms (List.mem_cons_of_mem _ hx)) alpha' best' r.2
termination_by (O.capMeasure b, 0, ms.length)
decreasing_by
  · have hlt := O.capDec b mv c (hms (List.mem_cons_self _ _))
    exact Prod.Lex.left _ _ hlt
  · exact Prod.Lex.right _ (Prod.Lex.right _ (by simp))

end

/-- The tail of `search_internal` after the move loop: pop the hash,
classify the node type against the pre-search window, store the TT entry
(always-replace), record the best move at the root. -/
def finalizeNode {M : Type} (bhash depth : ℕ) (alphaOrig beta bestValue : ℤ)
    (bestMove : M) (s : SState M) : ℤ × SState M :=
  let s1 := popBoardHash s
  let nodeType : NodeType :=
    if bestValue ≤ alphaOrig then .upperBound
    else if beta ≤ bestValue then .lowerBound
    else .exact
  let s2 := { s1 with
    tt := ttSetT s1.tt bhash ⟨bhash, bestMove, bestValue, depth, nodeType⟩ }
  let s3 := if s2.ply = 0 then { s2 with best_move := bestMove } else s2
  (bestValue, s3)

mutual

/-- `Searcher::search_internal` (the negamax core): node counting and the
stop/deadline check, then the main body. -/
def searchInternal {B M : Type} (O : Oracle B M) (timer : ℕ → Bool)
    (depth : ℕ) (b : B) (alpha beta : ℤ) (s : SState M) : ℤ × SState M :=
  let s1 : SState M := { s with nodes := s.nodes + 1 }
  if s1.stop_search ∨ (s1.nodes % 1024 = 0 ∧ timer s1.nodes) then
    (0, { s1 with stop_search := true })
  else searchMain O timer depth b alpha beta s1
termination_by (depth, 3, 0)
decreasing_by
  exact Prod.Lex.right _ (Prod.Lex.left _ _ (by omega))

/-- `search_internal` after the preamble: repetition check, TT probe,
terminal handling, leaf quiescence, then the pruned move search. -/
def searchMain {B M : Type} (O : Oracle B M) (timer : ℕ → Bool)
    (depth : ℕ) (b : B) (alpha beta : ℤ) (s1 : SState M) : ℤ × SState M :=
  let alphaOrig := alpha
  let bhash := O.hash b
  let isPv : Bool := decide (alpha + 1 < beta)
  if isRepetitionDraw s1.board_history (O.halfmove b) bhash then (0, s1)
  else
    match ttStep (ttGetT s1.tt bhash) s1.ply depth alpha beta O.nullM (O.evalFn b) with
    | .inl v => (v, s1)
    | .inr (alpha, beta, ttMove, staticEval) =>
      if O.status b = .won then (-(MATE_VALUE - (s1.ply : ℤ)), s1)
      else if O.status b = .drawn then (0, s1)
      else
        match depth with
        | 0 => qsearch O timer b alpha beta s1
        | dc + 1 =>
          searchMoves O timer dc isPv alphaOrig bhash b alpha beta ttMove staticEval s1
termination_by (depth, 2, 0)
decreasing_by
  exact Prod.Lex.right _ (Prod.Lex.left _ _ (by omega))

/-- The null-move pruning step: if pruning applies and a null move exists,
search it with the null window `(-beta, -beta + 1)` at `depth - 3`; a
result at least `beta` is returned as a cutoff (`some`). -/
def nullMovePrune {B M : Type} (O : Oracle B M) (timer : ℕ → Bool)
    (dc : ℕ) (b : B) (beta : ℤ) (doPrune : Bool) (s2 : SState M) :
    Option ℤ × SState M :=
  if doPrune ∧ 3 ≤ dc + 1 then
    match O.nullMove b with
    | some nb =>
      let r := searchInternal O timer (dc + 1 - 3) nb (-beta) (-beta + 1) s2
      let nmv := -r.1
      if beta ≤ nmv then (some nmv, r.2) else (none, r.2)
    | none => (none, s2)
  else (none, s2)
termination_by (dc + 1, 0, 0)
decreasing_by
  exact Prod.Lex.left _ _ (by omega)

/-- `search_internal` from the hash push on: null-move pruning, reverse
futility pruning, the move loop and the node finalisation (`dc` is
`depth - 1`). -/
def searchMoves {B M : Type} (O : Oracle B M) (timer : ℕ → Bool)
    (dc : ℕ) (isPv : Bool) (alphaOrig : ℤ) (bhash : ℕ) (b : B)
    (alpha beta : ℤ) (ttMove : M) (staticEval : ℤ) (s1 : SState M) :
    ℤ × SState M :=
  let it := O.allMoves b ttMove (s1.killers (dc + 1)) s1.history
  let s2 := pushBoardHash bhash s1
  let doPrune : Bool := !isPv && decide (0 < s2.ply)
  match nullMovePrune O timer dc b beta doPrune s2 with
  | (some v, s3) => (v, popBoardHash s3)
  | (none, s3) =>
    if doPrune ∧ dc + 1 ≤ 5 ∧ O.checkersEmpty b ∧
        beta + 75 * ((dc : ℤ) + 1) ≤ staticEval then
      (staticEval, popBoardHash s3)
    else
      let r := moveLoopGo O timer dc isPv b beta it 0 alpha (-SCORE_INF) O.nullM s3
      finalizeNode bhash (dc + 1) alphaOrig beta r.1 r.2.1 r.2.2
termination_by (dc + 1, 1, 0)
decreasing_by
  · exact Prod.Lex.right _ (Prod.Lex.left _ _ (by omega))
  · exact Prod.Lex.right _ (Prod.Lex.left _ _ (by omega))

/-- The value search for one move of the loop (PVS with LMR): full-window
search for move 0, otherwise reduced null-window search with a possible
full re-search. -/
def moveValue {B M : Type} (O : Oracle B M) (timer : ℕ → Bool)
    (dc : ℕ) (isPv : Bool) (b : B) (beta : ℤ) (mv : M) (iscap : Bool)
    (moveNum : ℕ) (alpha : ℤ) (s : SState M) : ℤ × SState M :=
  let child := O.play b mv
  if moveNum = 0 then
    let r := searchInternal O timer dc child (-beta) (-alpha) s
    (-r.1, r.2)
  else
    let reduction : ℕ :=
      if 3 ≤ dc + 1 ∧ 2 + 2 * (cond isPv 1 0) ≤ moveNum ∧ iscap = false ∧
          O.isPromo mv = false ∧ O.checkersEmpty child then
        min (s.lmr (dc + 1) moveNum) (dc + 1 - 2)
      else 0
    let newDepth := dc + 1 - reduction - 1
    let r1 := searchInternal O timer newDepth child (-alpha - 1) (-alpha) s
    let tmp := -r1.1
    if alpha < tmp ∧ tmp < beta then
      let r2 := searchInternal O timer dc child (-beta) (-alpha) r1.2
      (-r2.1, r2.2)
    else (tmp, r1.2)
termination_by (dc + 1, 0, 0)
decreasing_by
  · exact Prod.Lex.left _ _ (by omega)
  · exact Prod.Lex.left _ _ (by omega)
  · exact Prod.Lex.left _ _ (by omega)

/-- The move loop of `search_internal`.  `dc` is `depth - 1` (the loop only
runs at `depth ≥ 1`); the remaining arguments are the moves still to try,
`move_num`, `alpha`, `best_value`, `best_move` and the searcher state. -/
def moveLoopGo {B M : Type} (O : Oracle B M) (timer : ℕ → Bool)
    (dc : ℕ) (isPv : Bool) (b : B) (beta : ℤ) (ms : List (M × Bool))
    (moveNum : ℕ) (alpha bestValue : ℤ) (bestMove : M) (s : SState M) :
    ℤ × M × SState M :=
  match ms with
  | [] => (bestValue, bestMove, s)
  | (mv, iscap) :: rest =>
    let cv := moveValue O timer dc isPv b beta mv iscap moveNum alpha s
    let bb : ℤ × M := if bestValue < cv.1 then (cv.1, mv) else (bestValue, bestMove)
    let alpha' := max alpha bb.1
    if beta ≤ alpha' then
      let s' :=
        if iscap = false then
          { cv.2 with
            killers := fun d => if d = dc + 1 then some mv else cv.2.killers d,
            history := historyUpdate cv.2.history (O.histIdx b mv) (dc + 1) }
        else cv.2
      (bb.1, bb.2, s')
    else moveLoopGo O timer dc isPv b beta rest (moveNum + 1) alpha' bb.1 bb.2 cv.2
termination_by (dc + 1, 0, ms.length + 1)
decreasing_by
  · exact Prod.Lex.right _ (Prod.Lex.right _ (by simp))
  · exact Prod.Lex.right _ (Prod.Lex.right _ (by simp))

end

/-- One root aspiration-window re-search loop (the `i ≥ 5` branch of
`Searcher::search`).  `f` abstracts one `negamax` call as a state-threading
value source; `fuel` bounds the iteration count, `none` meaning the fuel
ran out (the loop can genuinely diverge, see the C5 analysis).  On exit it
returns the value together with the final window and state. -/
def aspLoop {σ : Type} (f : σ → ℤ × ℤ → ℤ × σ) :
    ℕ → ℤ → ℤ → ℤ → σ → Option (ℤ × ℤ × ℤ × σ)
  | 0, _, _, _, _ => none
  | fuel + 1, window, alpha, beta, st =>
    let r := f st (alpha, beta)
    if beta ≤ r.1 then
      aspLoop f fuel (satI16 (window * 2)) alpha (satI16 (beta + window)) r.2
    else if r.1 ≤ alpha then
      aspLoop f fuel (satI16 (window * 2)) (satI16 (alpha - window)) beta r.2
    else some (r.1, alpha, beta, r.2)

/-- The `prior_moves` replay of `search_reset`: translate each move,
play it (`play_unchecked`) and record the post-move hash. -/
def replayMoves {B M : Type} (O : Oracle B M) :
    B → List M → List ℕ → B × List ℕ
  | b, [], hist => (b, hist)
  | b, mv :: rest, hist =>
    let mv' := O.uciToKxr b mv
    let b' := O.play b mv'
    replayMoves O b' rest (hist ++ [O.hash b'])

/-- `Searcher::search_reset`: the TT persists, everything else resets; the
board history is rebuilt from the replayed `prior_moves` and its final
entry popped.  Returns the replayed board and the fresh searcher state. -/
def searchReset {B M : Type} (O : Oracle B M) (tt : TranspositionTable M)
    (lmr : ℕ → ℕ → ℕ) (b : B) (moves : List M) : B × SState M :=
  let r := replayMoves O b moves [O.hash b]
  (r.1,
    { tt := tt
      board_history := r.2.dropLast
      stop_search := false
      history := historyClear
      killers := fun _ => none
      lmr := lmr
      best_move := O.nullM
      ply := 0
      nodes := 0 })

/-- The iterative-deepening loop of `Searcher::search`, from iteration `i`.
Returns `none` when an aspiration re-search exhausts its fuel. -/
def idLoop {B M : Type} (O : Oracle B M) (timer : ℕ → Bool) (aspFuel : ℕ)
    (b : B) (maxDepth : ℕ) (i : ℕ) (bestMove : M) (bestValue : ℤ)
    (s : SState M) : Option (M × ℤ) :=
  if maxDepth < i then some (bestMove, bestValue)
  else
    let step : Option (ℤ × SState M) :=
      if i < 5 then some (searchInternal O timer i b (-SCORE_INF) SCORE_INF s)
      else
        match aspLoop (fun st ab => searchInternal O timer i b ab.1 ab.2 st) aspFuel
            20 (bestValue - 20) (bestValue + 20) s with
        | some (v, _, _, st) => some (v, st)
        | none => none
    match step with
    | none => none
    | some (v, s') =>
      let s'' := { s' with history := historyNormalize s'.history }
      if s''.stop_search ∨ timer s''.nodes then some (bestMove, bestValue)
      else idLoop O timer aspFuel b maxDepth (i + 1) s''.best_move v s''
termination_by maxDepth + 1 - i

/-- `Searcher::search(board, moves, stats, max_depth, move_time)`: reset,
then iteratively deepen from depth 1. -/
def search {B M : Type} (O : Oracle B M) (timer : ℕ → Bool) (aspFuel : ℕ)
    (tt : TranspositionTable M) (lmr : ℕ → ℕ → ℕ) (b : B) (moves : List M)
    (maxDepth : ℕ) : Option (M × ℤ) :=
  let r := searchReset O tt lmr b moves
  idLoop O timer aspFuel r.1 maxDepth 1 O.nullM 0 r.2

/-! ## Concrete instances used to exercise the embedding -/

/-- A degenerate board library over a one-point board type: fixed hash,
halfmove clock, status and static evaluation; no legal moves at all. -/
def unitOracle (hashV halfmoveV : ℕ) (st : GStatus) (ev : ℤ) : Oracle Unit Unit where
  hash := fun _ => hashV
  halfmove := fun _ => halfmoveV
  status := fun _ => st
  checkersEmpty := fun _ => true
  nullMove := fun _ => none
  play := fun _ _ => ()
  evalFn := fun _ => ev
  isPromo := fun _ => false
  nullM := ()
  histIdx := fun _ _ => 0
  allMoves := fun _ _ _ _ => []
  captureMoves := fun _ => []
  capMeasure := fun _ => 0
  capDec := fun _ m c h => absurd h (List.not_mem_nil (m, c))
  uciToKxr := fun _ m => m

/-- A searcher state over `Unit` moves with the given board history. -/
def unitState (hist : List ℕ) : SState Unit where
  tt := [none]
  board_history := hist
  stop_search := false
  history := historyFresh
  killers := fun _ => none
  lmr := fun _ _ => 0
  best_move := ()
  ply := 0
  nodes := 0

/-- Concrete PSQT data: the spec's material values, zero positional tables,
the spec's phase increments. -/
def specPSQT : PSQTData where
  mgValue := PIECE_VALUES
  egValue := PIECE_VALUES
  mgTable := fun _ => 0
  egTable := fun _ => 0
  phaseInc := GAME_PHASE_INC

/-- A board holding a single white queen on a1, White to move. -/
def qBoard : EvalBoard where
  stm := Color.white
  pieceAt := fun sq => if sq = 0 then some (Piece.queen, Color.white) else none

/-- A one-group board for the move orderer: one legal non-capture move. -/
def obExample : OBoard where
  groups := [(0, [⟨0, 1, none⟩])]
  enemy := fun _ => false
  pieceOn := fun sq => if sq = 0 then some Piece.pawn else none
  colorOn := fun sq => if sq = 0 then some Color.white else none

end Engine

namespace Engine

/-! ## Basic arithmetic lemmas -/

theorem wrap16_eq_self {x : ℤ} (h1 : -32768 ≤ x) (h2 : x ≤ 32767) :
    wrap16 x = x := by
  unfold wrap16
  rw [Int.emod_eq_of_lt (by omega) (by omega)]
  omega

theorem wrap16_mem {x : ℤ} : -32768 ≤ wrap16 x ∧ wrap16 x ≤ 32767 := by
  unfold wrap16
  have h1 : 0 ≤ (x + 32768) % 65536 := Int.emod_nonneg _ (by omega)
  have h2 : (x + 32768) % 65536 < 65536 := Int.emod_lt_of_pos _ (by omega)
  omega

theorem rustDiv_two_nonneg {x : ℤ} (h : 0 ≤ x) : rustDiv x 2 = x / 2 := by
  unfold rustDiv
  exact Int.tdiv_eq_ediv h (by omega)

/-! ## C1 — transposition-table lookup characterisation -/

/-- C1: for every table state with nonzero capacity and every hash `h`,
`TT.get(h)` reads the slot at index `h mod capacity` and returns
`Some(entry)` exactly when that slot is occupied by an entry whose stored
hash field equals `h` exactly; otherwise it returns `None`. -/
theorem ttGet_hash_exact {M : Type} (t : TranspositionTable M) (h : ℕ)
    (hcap : 0 < t.length) :
    (∀ e : TTEntry M, ttGet t h = .ok (some e) ↔
        t[h % t.length]? = some (some e) ∧ e.hash = h) ∧
    (ttGet t h = .ok none ↔
        ∀ e : TTEntry M, t[h % t.length]? = some (some e) → e.hash ≠ h) := by
  have hidx : h % t.length < t.length := Nat.mod_lt _ hcap
  have hget : t[h % t.length]? = some (t.get ⟨h % t.length, hidx⟩) := by
    rw [List.getElem?_eq_getElem hidx]
    rfl
  unfold ttGet
  rw [dif_neg (by omega)]
  rw [hget]
  constructor
  · intro e
    cases hslot : t.get ⟨h % t.length, hidx⟩ with
    | none => simp [Option.filter]
    | some e' =>
      by_cases hbe : e'.hash = h
      · simp [Option.filter, hbe]
        intro he
        subst he
        exact hbe
      · simp [Option.filter, hbe]
        intro he
        subst he
        exact hbe
  · cases hslot : t.get ⟨h % t.length, hidx⟩ with
    | none => simp [Option.filter]
    | some e' =>
      by_cases hbe : e'.hash = h
      · simp [Option.filter, hbe]
      · simp [Option.filter, hbe]

/-- C1 witness: a one-slot table holding an entry with hash 5: the lookup
at 5 succeeds, characterised exactly by the theorem. -/
theorem ttGet_hash_exact_witness :
    ttGet ([some ⟨5, (), 3, 2, NodeType.exact⟩] : TranspositionTable Unit) 5 =
        .ok (some (⟨5, (), 3, 2, NodeType.exact⟩ : TTEntry Unit)) ↔
      ([some ⟨5, (), 3, 2, NodeType.exact⟩] :
          TranspositionTable Unit)[5 % 1]? =
          some (some (⟨5, (), 3, 2, NodeType.exact⟩ : TTEntry Unit)) ∧
      (⟨5, (), 3, 2, NodeType.exact⟩ : TTEntry Unit).hash = 5 :=
  (ttGet_hash_exact [some ⟨5, (), 3, 2, NodeType.exact⟩] 5 (by decide)).1
    ⟨5, (), 3, 2, NodeType.exact⟩

/-! ## C10 — zero-capacity panic, positive-capacity totality -/

/-- C10: `TranspositionTable::new(bytes)` with `bytes` below the size of
one `Option<TTEntry>` allocates zero slots, and every subsequent `get` or
`set` computes `hash % 0` and panics; with a byte budget of at least one
slot, `get` and `set` are total and never panic.  `entrySize` is the
(layout-determined, positive) slot size. -/
theorem ttNew_capacity_and_panic {M : Type} (entrySize bytes h : ℕ)
    (e : TTEntry M) (hE : 0 < entrySize) :
    (bytes < entrySize →
      (ttNew M entrySize bytes).length = 0 ∧
      ttGet (ttNew M entrySize bytes) h = .panicked ∧
      ttSet (ttNew M entrySize bytes) h e = .panicked) ∧
    (entrySize ≤ bytes →
      0 < (ttNew M entrySize bytes).length ∧
      ttGet (ttNew M entrySize bytes) h ≠ .panicked ∧
      ttSet (ttNew M entrySize bytes) h e ≠ .panicked) := by
  have hlen : (ttNew M entrySize bytes).length = bytes / entrySize := by
    simp [ttNew]
  constructor
  · intro hlt
    have h0 : bytes / entrySize = 0 := Nat.div_eq_of_lt hlt
    refine ⟨by omega, ?_, ?_⟩
    · unfold ttGet
      rw [dif_pos (by omega)]
    · unfold ttSet
      rw [if_pos (by omega)]
  · intro hge
    have h1 : 0 < bytes / entrySize := Nat.div_pos hge hE
    refine ⟨by omega, ?_, ?_⟩
    · unfold ttGet
      rw [dif_neg (by omega)]
      exact fun hcontr => by cases hcontr
    · unfold ttSet
      rw [if_neg (by omega)]
      exact fun hcontr => by cases hcontr

/-- C10 witness: with slot size 16, a 8-byte budget panics and a 32-byte
budget is total. -/
theorem ttNew_capacity_and_panic_witness :
    (ttNew Unit 16 8).length = 0 ∧
    ttGet (ttNew Unit 16 8) 7 = .panicked ∧
    ttGet (ttNew Unit 16 32) 7 ≠ .panicked := by
  obtain ⟨hsmall, -⟩ :=
    ttNew_capacity_and_panic (M := Unit) 16 8 7 ⟨0, (), 0, 0, .exact⟩ (by decide)
  obtain ⟨-, hbig⟩ :=
    ttNew_capacity_and_panic (M := Unit) 16 32 7 ⟨0, (), 0, 0, .exact⟩ (by decide)
  obtain ⟨hl, hg, -⟩ := hsmall (by decide)
  obtain ⟨-, hg2, -⟩ := hbig (by decide)
  exact ⟨hl, hg, hg2⟩

/-! ## C4 — history-table entry bounds -/

/-- C4 counterexample: a single `update` with depth 181 (a legal `u8`
depth) makes `history_delta` overflow `i16` (32761 + 181 wraps to -32594),
driving the fresh entry to -32594, far below `-HISTORY_LIMIT`; the claimed
bound `[-HISTORY_LIMIT, HISTORY_LIMIT)` fails. -/
theorem histApply_escapes_bounds :
    ¬ (-HISTORY_LIMIT ≤ histApply [HistOp.update 0 181] 0 ∧
        histApply [HistOp.update 0 181] 0 < HISTORY_LIMIT) := by decide

/-- The inductive invariant behind the amended C4: with all update depths
at most 127 every entry stays in `[0, HISTORY_LIMIT)`. -/
theorem histApplyOp_invariant (t : HistoryTable)
    (hinv : ∀ i, 0 ≤ t i ∧ t i < HISTORY_LIMIT) (op : HistOp)
    (hop : ∀ idx d, op = HistOp.update idx d → d.val ≤ 127) :
    ∀ i, 0 ≤ histApplyOp t op i ∧ histApplyOp t op i < HISTORY_LIMIT := by
  have hHL : HISTORY_LIMIT = 16383 := rfl
  intro i
  cases op with
  | clear => simp [histApplyOp, historyClear, hHL]
  | normalize =>
    have hi := hinv i
    simp only [histApplyOp, historyNormalize]
    rw [rustDiv_two_nonneg hi.1, hHL]
    rw [hHL] at hi
    omega
  | update idx d =>
    have hd : d.val ≤ 127 := hop idx d rfl
    have hdle : (d.val : ℤ) ≤ 127 := by exact_mod_cast hd
    have hdn : (0 : ℤ) ≤ (d.val : ℤ) := by positivity
    have hsqn : (0 : ℤ) ≤ (d.val : ℤ) * d.val := by positivity
    have hsq : ((d.val : ℤ) * d.val) ≤ 16129 := by nlinarith
    have hdelta : historyDelta (d.val : ℤ) = d.val * d.val + d.val := by
      unfold historyDelta
      rw [wrap16_eq_self (x := (d.val : ℤ) * d.val) (by omega) (by omega),
        wrap16_eq_self (by omega) (by omega)]
    have hidx1 : 0 ≤ t idx := (hinv idx).1
    have hidx2 : t idx < 16383 := by
      have := (hinv idx).2
      rwa [hHL] at this
    have hentry :
        wrap16 (t idx + historyDelta (d.val : ℤ)) =
          t idx + ((d.val : ℤ) * d.val + d.val) := by
      rw [hdelta]
      exact wrap16_eq_self (by omega) (by omega)
    simp only [histApplyOp, historyUpdate, hentry]
    by_cases hcut : HISTORY_LIMIT ≤ t idx + ((d.val : ℤ) * d.val + d.val)
    · rw [if_pos hcut]
      rw [hHL] at hcut
      simp only [historyNormalize]
      by_cases hii : i = idx
      · rw [if_pos hii]
        rw [rustDiv_two_nonneg (by omega), hHL]
        omega
      · rw [if_neg hii]
        have hi1 := (hinv i).1
        have hi2 := (hinv i).2
        rw [hHL] at hi2
        rw [rustDiv_two_nonneg hi1, hHL]
        omega
    · rw [if_neg hcut]
      rw [hHL] at hcut
      by_cases hii : i = idx
      · rw [if_pos hii, hHL]
        omega
      · rw [if_neg hii]
        exact hinv i

/-- C4 (amended): for every sequence of history-table operations starting
from a fresh table in which every `update` has depth at most 127 (the
largest depth whose delta cannot overflow the entry), every entry returned
by `get` lies in `[-HISTORY_LIMIT, HISTORY_LIMIT)` after each operation. -/
theorem histApply_entries_bounded (ops : List HistOp)
    (hops : ∀ op ∈ ops, ∀ idx d, op = HistOp.update idx d → d.val ≤ 127) :
    ∀ i, -HISTORY_LIMIT ≤ histApply ops i ∧ histApply ops i < HISTORY_LIMIT := by
  have key : ∀ i, 0 ≤ histApply ops i ∧ histApply ops i < HISTORY_LIMIT := by
    unfold histApply
    have gen :
        ∀ (l : List HistOp) (t : HistoryTable),
          (∀ i, 0 ≤ t i ∧ t i < HISTORY_LIMIT) →
          (∀ op ∈ l, ∀ idx d, op = HistOp.update idx d → d.val ≤ 127) →
          ∀ i, 0 ≤ l.foldl histApplyOp t i ∧ l.foldl histApplyOp t i < HISTORY_LIMIT := by
      intro l
      induction l with
      | nil => intro t ht _ i; exact ht i
      | cons op rest ih =>
        intro t ht hl i
        simp only [List.foldl_cons]
        exact ih (histApplyOp t op)
          (histApplyOp_invariant t ht op (hl op (List.mem_cons_self _ _)))
          (fun o ho => hl o (List.mem_cons_of_mem _ ho)) i
    exact gen ops historyFresh
      (fun i => by simp [historyFresh, HISTORY_LIMIT])
      hops
  intro i
  have := key i
  unfold HISTORY_LIMIT at this ⊢
  omega

/-- C4 witness: one depth-5 update keeps the touched entry (value 30)
inside the bounds. -/
theorem histApply_entries_bounded_witness :
    -HISTORY_LIMIT ≤ histApply [HistOp.update 0 5] 0 ∧
    histApply [HistOp.update 0 5] 0 < HISTORY_LIMIT := by
  refine histApply_entries_bounded [HistOp.update 0 5] ?_ 0
  intro op hop idx d hd
  simp only [List.mem_singleton] at hop
  subst hop
  cases hd
  decide

/-! ## C2 — repetition-draw detection -/

/-- The early-exit counting loop returns `true` iff the running count plus
the number of matches reaches 2 (for running counts below 2, the only ones
that occur). -/
theorem repCountLoop_iff (h : ℕ) :
    ∀ (l : List ℕ) (cnt : ℕ), cnt < 2 →
      (repCountLoop h l cnt = true ↔ 2 ≤ cnt + l.count h) := by
  intro l
  induction l with
  | nil =>
    intro cnt hc
    simp only [repCountLoop, List.count_nil]
    constructor
    · intro hcontr; cases hcontr
    · omega
  | cons x rest ih =>
    intro cnt hc
    simp only [repCountLoop]
    by_cases hx : x = h
    · rw [if_pos hx]
      by_cases h2 : 2 ≤ cnt + 1
      · rw [if_pos h2]
        simp only [List.count_cons, hx]
        constructor
        · intro _
          simp only [beq_self_eq_true, if_pos]
          omega
        · intro _; trivial
      · rw [if_neg h2]
        rw [ih (cnt + 1) (by omega)]
        simp only [List.count_cons, hx, beq_self_eq_true, if_pos]
        omega
    · rw [if_neg hx]
      rw [ih cnt hc]
      have hbe : (x == h) = false := by
        exact beq_false_of_ne hx
      simp [List.count_cons, hbe]

/-- C2: `is_repetition_draw(halfmove, h)` is false whenever
`halfmove < 4`; otherwise it scans `board_history` newest-to-oldest
restricted to the most recent `halfmove` entries, skips the first and
takes every second entry, and returns true exactly when at least two
scanned hashes equal `h`; and `negamax` returns exactly 0 whenever the
predicate holds for the current position. -/
theorem isRepetitionDraw_spec_and_zero :
    (∀ (hist : List ℕ) (hm h : ℕ),
        isRepetitionDraw hist hm h = true ↔
          4 ≤ hm ∧ 2 ≤ (stepBy2 ((hist.reverse.take hm).drop 1)).count h) ∧
    (∀ (B M : Type) (O : Oracle B M) (timer : ℕ → Bool) (depth : ℕ) (b : B)
        (alpha beta : ℤ) (s : SState M),
        isRepetitionDraw s.board_history (O.halfmove b) (O.hash b) = true →
        (searchInternal O timer depth b alpha beta s).1 = 0) := by
  constructor
  · intro hist hm h
    unfold isRepetitionDraw
    by_cases h4 : hm < 4
    · rw [if_pos h4]
      constructor
      · intro hcontr; cases hcontr
      · intro hcontr; omega
    · rw [if_neg h4]
      rw [repCountLoop_iff h _ 0 (by omega)]
      constructor
      · intro hc; exact ⟨by omega, by omega⟩
      · intro hc; omega
  · intro B M O timer depth b alpha beta s hrep
    rw [searchInternal]
    split
    · rfl
    · rw [searchMain]
      split
      · rfl
      · next hfalse => exact absurd hrep hfalse

/-- C2 witness: a four-entry history `[7, 1, 7, 2]` with halfmove clock 8
and current hash 7 — the scanned same-side hashes are `[7, 7]`, two
matches — is a repetition draw, and negamax returns 0 on it. -/
theorem isRepetitionDraw_spec_and_zero_witness :
    isRepetitionDraw (unitState [7, 1, 7, 2]).board_history
        ((unitOracle 7 8 GStatus.ongoing 0).halfmove ())
        ((unitOracle 7 8 GStatus.ongoing 0).hash ()) = true ∧
    (searchInternal (unitOracle 7 8 GStatus.ongoing 0) (fun _ => false) 3 ()
        (-5) 5 (unitState [7, 1, 7, 2])).1 = 0 := by
  have h : isRepetitionDraw (unitState [7, 1, 7, 2]).board_history
      ((unitOracle 7 8 GStatus.ongoing 0).halfmove ())
      ((unitOracle 7 8 GStatus.ongoing 0).hash ()) = true := by decide
  exact ⟨h, isRepetitionDraw_spec_and_zero.2 Unit Unit _ _ 3 () (-5) 5 _ h⟩

/-! ## C5 — aspiration-window re-search loop -/

/-- Whenever the re-search loop exits, the value is strictly inside the
final window (the loop breaks exactly on `alpha < v < beta`). -/
theorem aspLoop_some_window {σ : Type} (f : σ → ℤ × ℤ → ℤ × σ) :
    ∀ (fuel : ℕ) (w a b : ℤ) (st : σ) (v a' b' : ℤ) (st' : σ),
      aspLoop f fuel w a b st = some (v, a', b', st') → a' < v ∧ v < b' := by
  intro fuel
  induction fuel with
  | zero =>
    intro w a b st v a' b' st' hcontr
    cases hcontr
  | succ n ih =>
    intro w a b st v a' b' st' hsome
    rw [aspLoop] at hsome
    by_cases h1 : b ≤ (f st (a, b)).1
    · rw [if_pos h1] at hsome
      exact ih _ _ _ _ _ _ _ _ hsome
    · rw [if_neg h1] at hsome
      by_cases h2 : (f st (a, b)).1 ≤ a
      · rw [if_pos h2] at hsome
        exact ih _ _ _ _ _ _ _ _ hsome
      · rw [if_neg h2] at hsome
        simp only [Option.some.injEq, Prod.mk.injEq] at hsome
        obtain ⟨hv, ha2, hb2, -⟩ := hsome
        subst hv; subst ha2; subst hb2
        exact ⟨by omega, by omega⟩

/-- With every negamax value equal to `SCORE_INF`, every iteration
fails high (the saturated `beta` never exceeds 32767), so the loop never
exits, whatever the fuel. -/
theorem aspLoop_const_inf_eq_none :
    ∀ (fuel : ℕ) (w a b : ℤ), b ≤ 32767 →
      aspLoop (fun (_ : Unit) _ => (SCORE_INF, ())) fuel w a b () = none := by
  intro fuel
  induction fuel with
  | zero => intro w a b _; rfl
  | succ n ih =>
    intro w a b hb
    rw [aspLoop]
    rw [if_pos (show b ≤ (SCORE_INF, ()).1 by exact hb)]
    apply ih
    unfold satI16
    omega

/-- C5 counterexample: if negamax returns `SCORE_INF = i16::MAX = 32767` at
every call, the aspiration re-search loop started from `best_value = 0`
fails high forever — `beta` saturates at 32767, which the returned value
still reaches — and never terminates. -/
theorem aspLoop_diverges_at_score_inf :
    ¬ ∃ (fuel : ℕ) (r : ℤ × ℤ × ℤ × Unit),
        aspLoop (fun (_ : Unit) _ => (SCORE_INF, ())) fuel 20
          ((0 : ℤ) - 20) ((0 : ℤ) + 20) () = some r := by
  rintro ⟨fuel, r, hr⟩
  rw [aspLoop_const_inf_eq_none fuel 20 _ _ (by norm_num)] at hr
  cases hr

/-- Termination measure argument: while values stay in
`[-32767, 32766]`, every fail-high strictly raises `beta` (bounded by
32767) and every fail-low strictly lowers `alpha` (bounded by -32768), so
`(32767 - beta) + (alpha + 32768)` strictly decreases. -/
theorem aspLoop_term_aux {σ : Type} (f : σ → ℤ × ℤ → ℤ × σ)
    (hf : ∀ st ab, -SCORE_INF ≤ (f st ab).1 ∧ (f st ab).1 ≤ SCORE_INF - 1) :
    ∀ (k : ℕ) (w a b : ℤ) (st : σ),
      1 ≤ w → -32768 ≤ a → b ≤ 32767 →
      (32767 - b).toNat + (a + 32768).toNat < k →
      (aspLoop f k w a b st).isSome := by
  intro k
  induction k with
  | zero => intro w a b st _ _ _ hm; omega
  | succ n ih =>
    intro w a b st hw ha hb hm
    have hr1 : (-32767 : ℤ) ≤ (f st (a, b)).1 := (hf st (a, b)).1
    have hr2 : (f st (a, b)).1 ≤ 32766 := (hf st (a, b)).2
    rw [aspLoop]
    by_cases h1 : b ≤ (f st (a, b)).1
    · rw [if_pos h1]
      apply ih
      · unfold satI16; omega
      · exact ha
      · unfold satI16; omega
      · unfold satI16; omega
    · rw [if_neg h1]
      by_cases h2 : (f st (a, b)).1 ≤ a
      · rw [if_pos h2]
        apply ih
        · unfold satI16; omega
        · unfold satI16; omega
        · exact hb
        · unfold satI16; omega
      · rw [if_neg h2]
        rfl

/-- C5 (amended): for every starting `best_value` in the range where the
initial window fits in `i16` and every sequence of negamax values lying in
`[-SCORE_INF, SCORE_INF - 1]` (as the real searcher's values do), the
re-search loop terminates after finitely many iterations with a value
strictly inside the final `(alpha, beta)` window. -/
theorem aspLoop_terminates {σ : Type} (f : σ → ℤ × ℤ → ℤ × σ) (bv : ℤ)
    (hbv : -32748 ≤ bv ∧ bv ≤ 32747)
    (hf : ∀ st ab, -SCORE_INF ≤ (f st ab).1 ∧ (f st ab).1 ≤ SCORE_INF - 1)
    (st : σ) :
    ∃ (fuel : ℕ) (v a b : ℤ) (st' : σ),
      aspLoop f fuel 20 (bv - 20) (bv + 20) st = some (v, a, b, st') ∧
      a < v ∧ v < b := by
  have hs := aspLoop_term_aux f hf
    ((32767 - (bv + 20)).toNat + ((bv - 20) + 32768).toNat + 1)
    20 (bv - 20) (bv + 20) st (by omega) (by omega) (by omega) (by omega)
  obtain ⟨⟨v, a, b, st'⟩, h⟩ := Option.isSome_iff_exists.mp hs
  exact ⟨_, v, a, b, st', h, aspLoop_some_window f _ _ _ _ _ _ _ _ _ h⟩

/-- C5 witness: a constant-zero negamax terminates from `best_value = 0`. -/
theorem aspLoop_terminates_witness :
    ∃ (fuel : ℕ) (v a b : ℤ) (st' : Unit),
      aspLoop (fun (_ : Unit) _ => ((0 : ℤ), ())) fuel 20
        ((0 : ℤ) - 20) ((0 : ℤ) + 20) () = some (v, a, b, st') ∧
      a < v ∧ v < b := by
  refine aspLoop_terminates _ 0 ⟨by norm_num, by norm_num⟩ ?_ ()
  intro st ab
  refine ⟨by norm_num [SCORE_INF], by norm_num [SCORE_INF]⟩

/-! ## C6 — `search` with `max_depth = 0` -/

/-- C6 counterexample: an oracle whose root stand-pat quiescence score is 5
(the static evaluation, and there are no captures): `search` with
`max_depth = 0` returns value 0, not the stand-pat score — the
iterative-deepening loop `1..=0` never executes. -/
theorem search_maxdepth0_ne_standpat :
    search (unitOracle 1 0 GStatus.ongoing 5) (fun _ => false) 10 [none]
        (fun _ _ => 0) () [] 0 = some ((), 0) ∧
    (qsearch (unitOracle 1 0 GStatus.ongoing 5) (fun _ => false) ()
        (-SCORE_INF) SCORE_INF (unitState [])).1 = 5 ∧
    (0 : ℤ) ≠ 5 := by
  refine ⟨?_, ?_, by norm_num⟩
  · unfold search
    rw [idLoop]
    rw [if_pos (by omega)]
  · rw [qsearch]
    rw [if_neg (by norm_num [unitState])]
    rw [if_neg (by norm_num [unitOracle, SCORE_INF])]
    rw [qsearchLoop.eq_def]
    simp [unitOracle]

/-- C6 (amended): when `search` is called with `max_depth = 0` (any
deadline, any oracle), the loop body never runs and the result is
`(NULL_MOVE, 0)`. -/
theorem search_maxdepth0 {B M : Type} (O : Oracle B M) (timer : ℕ → Bool)
    (aspFuel : ℕ) (tt : TranspositionTable M) (lmr : ℕ → ℕ → ℕ) (b : B)
    (moves : List M) :
    search O timer aspFuel tt lmr b moves 0 = some (O.nullM, 0) := by
  unfold search
  rw [idLoop]
  rw [if_pos (by omega)]

/-! ## C8 — LMR table entries -/

/-- Rational bounds on `log 60`, from `2^94 < 60^16 < 2^95` and the
Mathlib decimal bounds on `log 2`. -/
theorem log60_bounds : (4.0722 : ℝ) < Real.log 60 ∧ Real.log 60 < 4.1156 := by
  have h2lo := Real.log_two_gt_d9
  have h2hi := Real.log_two_lt_d9
  constructor
  · have hlt : ((2 : ℝ) ^ (94 : ℕ)) < (60 : ℝ) ^ (16 : ℕ) := by norm_num
    have hl := Real.log_lt_log (by positivity) hlt
    rw [Real.log_pow, Real.log_pow] at hl
    norm_num at hl
    linarith
  · have hlt : ((60 : ℝ) ^ (16 : ℕ)) < (2 : ℝ) ^ (95 : ℕ) := by norm_num
    have hl := Real.log_lt_log (by positivity) hlt
    rw [Real.log_pow, Real.log_pow] at hl
    norm_num at hl
    linarith

/-- C8 counterexample: at `table[60][60]` the source constants
(`LMR_BASE = 0.75`, `LMR_DIVISOR = 2.25`) produce entry 8, while the
claimed formula `floor(0.77 + ln·ln / 2.36)` produces 7. -/
theorem lmrEntry_ne_claimed_formula :
    (lmrEntry 60 60 : ℤ) = 8 ∧
    ⌊(0.77 : ℝ) + Real.log (max 1 (60 : ℕ) : ℕ) *
        Real.log (max 1 (60 : ℕ) : ℕ) / 2.36⌋ = 7 ∧
    (8 : ℤ) ≠ 7 := by
  obtain ⟨hlo, hhi⟩ := log60_bounds
  have hmax : ((max 1 (60 : ℕ) : ℕ) : ℝ) = 60 := by norm_num
  have hsqlo : (4.0722 : ℝ) * 4.0722 < Real.log 60 * Real.log 60 :=
    mul_lt_mul'' hlo hlo (by norm_num) (by norm_num)
  have hsqhi : Real.log 60 * Real.log 60 < (4.1156 : ℝ) * 4.1156 :=
    mul_lt_mul'' hhi hhi (by linarith) (by linarith)
  have h225 : (2.25 : ℝ) = 9 / 4 := by norm_num
  have h236 : (2.36 : ℝ) = 59 / 25 := by norm_num
  refine ⟨?_, ?_, by norm_num⟩
  · unfold lmrEntry lmrRaw f64ToU8
    rw [hmax]
    have hfloor : ⌊(0.75 : ℝ) + Real.log 60 * Real.log 60 / 2.25⌋ = 8 := by
      rw [Int.floor_eq_iff]
      rw [h225]
      constructor
      · push_cast
        nlinarith
      · push_cast
        nlinarith
    rw [hfloor]
    norm_num
  · rw [hmax]
    rw [Int.floor_eq_iff]
    rw [h236]
    constructor
    · push_cast
      nlinarith
    · push_cast
      nlinarith

/-- C8 (amended): every `get(depth, move_num)` — hence every constructed
entry, the `as Depth` cast acting as a floor on these values — equals
`floor(0.75 + ln(max(1, depth))·ln(max(1, move_num)) / 2.25)` at the
indices clamped to the table bounds. -/
theorem lmrGet_eq_floor (depth moveNum : ℕ) :
    (lmrGet depth moveNum : ℤ) =
      ⌊(0.75 : ℝ) + Real.log (max 1 (min depth 63) : ℕ) *
          Real.log (max 1 (min moveNum 63) : ℕ) / 2.25⌋ := by
  unfold lmrGet lmrEntry f64ToU8 lmrRaw
  set a : ℕ := max 1 (min depth 63) with hadef
  set m : ℕ := max 1 (min moveNum 63) with hmdef
  have ha1 : (1 : ℝ) ≤ (a : ℝ) := by
    have : 1 ≤ a := le_max_left _ _
    exact_mod_cast this
  have ha63 : (a : ℝ) ≤ 63 := by
    have : a ≤ 63 := by omega
    exact_mod_cast this
  have hm1 : (1 : ℝ) ≤ (m : ℝ) := by
    have : 1 ≤ m := le_max_left _ _
    exact_mod_cast this
  have hm63 : (m : ℝ) ≤ 63 := by
    have : m ≤ 63 := by omega
    exact_mod_cast this
  have hl63 : Real.log 63 < 4.1589 := by
    have h1 : Real.log 63 < Real.log 64 := Real.log_lt_log (by norm_num) (by norm_num)
    rw [show (64 : ℝ) = 2 ^ (6 : ℕ) by norm_num, Real.log_pow] at h1
    have := Real.log_two_lt_d9
    norm_num at h1
    linarith
  have hla0 : 0 ≤ Real.log a := Real.log_nonneg ha1
  have hlm0 : 0 ≤ Real.log m := Real.log_nonneg hm1
  have hla : Real.log a ≤ Real.log 63 := Real.log_le_log (by linarith) ha63
  have hlm : Real.log m ≤ Real.log 63 := Real.log_le_log (by linarith) hm63
  have hl630 : 0 ≤ Real.log 63 := Real.log_nonneg (by norm_num)
  set X : ℝ := 0.75 + Real.log a * Real.log m / 2.25 with hXdef
  have hX0 : (0 : ℝ) ≤ X := by
    have : 0 ≤ Real.log a * Real.log m := mul_nonneg hla0 hlm0
    rw [hXdef]
    positivity
  have hX256 : X < 256 := by
    have hmul : Real.log a * Real.log m ≤ Real.log 63 * Real.log 63 := by
      exact mul_le_mul hla hlm hlm0 hl630
    have hsq : Real.log 63 * Real.log 63 < (4.1589 : ℝ) * 4.1589 :=
      mul_lt_mul'' hl63 hl63 hl630 hl630
    have h225 : (2.25 : ℝ) = 9 / 4 := by norm_num
    rw [hXdef, h225]
    nlinarith
  have hf0 : 0 ≤ ⌊X⌋ := Int.floor_nonneg.mpr hX0
  have hf255 : ⌊X⌋ ≤ 255 := by
    have : ⌊X⌋ < 256 := Int.floor_lt.mpr (by exact_mod_cast hX256)
    omega
  rw [max_eq_right hf0, min_eq_right (by omega : ⌊X⌋ ≤ 255)]
  exact Int.toNat_of_nonneg hf0

/-! ## C9 — evaluation under mirroring -/

theorem sqFlip_involutive : ∀ sq : Fin 64, sqFlip (sqFlip sq) = sq := by decide

theorem Color.flip_flip (c : Color) : c.flip.flip = c := by
  cases c <;> rfl

theorem tbIdx_mirror (p : Piece) (c : Color) (sq : Fin 64) :
    tbIdx p c.flip (sqFlip sq) = tbIdx p c sq := by
  cases c with
  | white => simp [tbIdx, Color.flip, sqFlip]
  | black => simp [tbIdx, Color.flip, sqFlip, Nat.xor_cancel_right]

/-- The square-flip permutation of the board. -/
def sqFlipEquiv : Fin 64 ≃ Fin 64 :=
  ⟨sqFlip, sqFlip, fun sq => sqFlip_involutive sq, fun sq => sqFlip_involutive sq⟩

theorem mgSide_mirror (P : PSQTData) (b : EvalBoard) (c : Color) :
    mgSide P (mirrorBoard b) c = mgSide P b c.flip := by
  unfold mgSide
  refine Fintype.sum_equiv sqFlipEquiv _ _ ?_
  intro sq
  show (match (mirrorBoard b).pieceAt sq with
    | some (p, pc) => if pc = c then P.mgValue p + P.mgTable (tbIdx p pc sq) else 0
    | none => 0) = _
  simp only [mirrorBoard, sqFlipEquiv, Equiv.coe_fn_mk]
  cases hpc : b.pieceAt (sqFlip sq) with
  | none => simp
  | some pc =>
    obtain ⟨p, pcol⟩ := pc
    simp only [Option.map_some']
    have hcond : (pcol.flip = c) ↔ (pcol = c.flip) := by
      cases pcol <;> cases c <;> simp [Color.flip]
    have hidx : tbIdx p pcol.flip sq = tbIdx p pcol (sqFlip sq) := by
      have := tbIdx_mirror p pcol (sqFlip sq)
      rwa [sqFlip_involutive] at this
    by_cases hc : pcol = c.flip
    · rw [if_pos (hcond.mpr hc), if_pos hc, hidx]
    · rw [if_neg (fun hcontr => hc (hcond.mp hcontr)), if_neg hc]

theorem egSide_mirror (P : PSQTData) (b : EvalBoard) (c : Color) :
    egSide P (mirrorBoard b) c = egSide P b c.flip := by
  unfold egSide
  refine Fintype.sum_equiv sqFlipEquiv _ _ ?_
  intro sq
  simp only [mirrorBoard, sqFlipEquiv, Equiv.coe_fn_mk]
  cases hpc : b.pieceAt (sqFlip sq) with
  | none => simp
  | some pc =>
    obtain ⟨p, pcol⟩ := pc
    simp only [Option.map_some']
    have hcond : (pcol.flip = c) ↔ (pcol = c.flip) := by
      cases pcol <;> cases c <;> simp [Color.flip]
    have hidx : tbIdx p pcol.flip sq = tbIdx p pcol (sqFlip sq) := by
      have := tbIdx_mirror p pcol (sqFlip sq)
      rwa [sqFlip_involutive] at this
    by_cases hc : pcol = c.flip
    · rw [if_pos (hcond.mpr hc), if_pos hc, hidx]
    · rw [if_neg (fun hcontr => hc (hcond.mp hcontr)), if_neg hc]

theorem gamePhase_mirror (P : PSQTData) (b : EvalBoard) :
    gamePhase P (mirrorBoard b) = gamePhase P b := by
  unfold gamePhase
  refine Fintype.sum_equiv sqFlipEquiv _ _ ?_
  intro sq
  simp only [mirrorBoard, sqFlipEquiv, Equiv.coe_fn_mk]
  cases hpc : b.pieceAt (sqFlip sq) with
  | none => simp
  | some pc => simp

theorem evalScore32_mirror (P : PSQTData) (b : EvalBoard) :
    evalScore32 P (mirrorBoard b) = evalScore32 P b := by
  unfold evalScore32
  rw [mgSide_mirror, mgSide_mirror, egSide_mirror, egSide_mirror, gamePhase_mirror]
  rw [show (mirrorBoard b).stm = b.stm.flip from rfl]
  rw [Color.flip_flip]

/-- C9 counterexample: for the concrete mirror pair
(white queen on a1, White to move) / (black queen on a8, Black to move) —
with the spec's material values and zero positional tables — the evaluator
returns the same value 900 on both sides, not values of opposite sign. -/
theorem evaluate_mirror_not_negated :
    evaluate specPSQT qBoard = 900 ∧
    evaluate specPSQT (mirrorBoard qBoard) = 900 ∧
    ¬ (evaluate specPSQT qBoard = -evaluate specPSQT (mirrorBoard qBoard)) := by
  decide

/-- C9 (amended): for every pair of boards that are mirror-symmetric with
the side to move swapped, the evaluator returns EQUAL values (both are
from the side-to-move's perspective):
`evaluate(mirror(b)) = evaluate(b)`, for every PSQT data set. -/
theorem evaluate_mirror (P : PSQTData) (b : EvalBoard) :
    evaluate P (mirrorBoard b) = evaluate P b := by
  unfold evaluate
  rw [evalScore32_mirror]

/-- Companion fact (what the spec's sign sentence does hold of): swapping
only the side to move on a fixed placement negates the pre-cast score. -/
theorem evalScore32_flipStm (P : PSQTData) (b : EvalBoard) :
    evalScore32 P (flipStm b) = -evalScore32 P b := by
  simp only [evalScore32, rustDiv]
  have hmg : mgSide P (flipStm b) = mgSide P b := rfl
  have heg : egSide P (flipStm b) = egSide P b := rfl
  have hph : gamePhase P (flipStm b) = gamePhase P b := rfl
  have hstm : (flipStm b).stm = b.stm.flip := rfl
  rw [hmg, heg, hph, hstm, Color.flip_flip]
  rw [← Int.neg_tdiv]
  congr 1
  ring

/-! ## C7 — board-history / ply frame of negamax -/

theorem qsearchLoop_frame {B M : Type} (O : Oracle B M) (timer : ℕ → Bool) (b : B)
    (hIH : ∀ (b' : B), O.capMeasure b' < O.capMeasure b →
      ∀ (alpha beta : ℤ) (s : SState M),
        (qsearch O timer b' alpha beta s).2.board_history = s.board_history ∧
        (qsearch O timer b' alpha beta s).2.ply = s.ply) :
    ∀ (beta : ℤ) (ms : List (M × Bool)) (hms : ms ⊆ O.captureMoves b)
      (alpha best : ℤ) (s : SState M),
      (qsearchLoop O timer b beta ms hms alpha best s).2.board_history =
        s.board_history ∧
      (qsearchLoop O timer b beta ms hms alpha best s).2.ply = s.ply := by
  intro beta ms
  induction ms with
  | nil =>
    intro hms alpha best s
    rw [qsearchLoop.eq_def]
    exact ⟨rfl, rfl⟩
  | cons p rest ihl =>
    obtain ⟨mv, c⟩ := p
    intro hms alpha best s
    rw [qsearchLoop.eq_def]
    have hchild := hIH (O.play b mv) (O.capDec b mv c (hms (List.mem_cons_self _ _)))
      (-beta) (-alpha) s
    simp only []
    split
    · exact hchild
    · have hrest := ihl (fun x hx => hms (List.mem_cons_of_mem _ hx))
        (max alpha (-(qsearch O timer (O.play b mv) (-beta) (-alpha) s).1))
        (max best (-(qsearch O timer (O.play b mv) (-beta) (-alpha) s).1))
        (qsearch O timer (O.play b mv) (-beta) (-alpha) s).2
      exact ⟨hrest.1.trans hchild.1, hrest.2.trans hchild.2⟩

theorem qsearch_frame {B M : Type} (O : Oracle B M) (timer : ℕ → Bool) :
    ∀ (b : B) (alpha beta : ℤ) (s : SState M),
      (qsearch O timer b alpha beta s).2.board_history = s.board_history ∧
      (qsearch O timer b alpha beta s).2.ply = s.ply := by
  have main : ∀ (n : ℕ) (b : B), O.capMeasure b = n →
      ∀ (alpha beta : ℤ) (s : SState M),
        (qsearch O timer b alpha beta s).2.board_history = s.board_history ∧
        (qsearch O timer b alpha beta s).2.ply = s.ply := by
    intro n
    induction n using Nat.strong_induction_on with
    | _ n ih =>
      intro b hb alpha beta s
      have hIH : ∀ (b' : B), O.capMeasure b' < O.capMeasure b →
          ∀ (alpha beta : ℤ) (s : SState M),
            (qsearch O timer b' alpha beta s).2.board_history = s.board_history ∧
            (qsearch O timer b' alpha beta s).2.ply = s.ply := by
        intro b' hb'
        exact ih (O.capMeasure b') (hb ▸ hb') b' rfl
      rw [qsearch.eq_def]
      simp only []
      split
      · exact ⟨rfl, rfl⟩
      · split
        · exact ⟨rfl, rfl⟩
        · exact qsearchLoop_frame O timer b hIH _ _ _ _ _ _
  intro b alpha beta s
  exact main (O.capMeasure b) b rfl alpha beta s

theorem finalizeNode_frame {M : Type} (bhash depth : ℕ)
    (alphaOrig beta bestValue : ℤ) (bestMove : M) (s : SState M) :
    (finalizeNode bhash depth alphaOrig beta bestValue bestMove s).2.board_history =
      s.board_history.dropLast ∧
    (finalizeNode bhash depth alphaOrig beta bestValue bestMove s).2.ply =
      s.ply - 1 := by
  unfold finalizeNode popBoardHash
  simp only []
  split
  · exact ⟨rfl, rfl⟩
  · exact ⟨rfl, rfl⟩

theorem moveValue_frame {B M : Type} (O : Oracle B M) (timer : ℕ → Bool)
    (dc : ℕ) (isPv : Bool) (b : B) (beta : ℤ) (mv : M) (iscap : Bool)
    (moveNum : ℕ) (alpha : ℤ) (s : SState M)
    (hIH : ∀ (d : ℕ), d ≤ dc → ∀ (b' : B) (alpha beta : ℤ) (s' : SState M),
      (searchInternal O timer d b' alpha beta s').2.board_history =
        s'.board_history ∧
      (searchInternal O timer d b' alpha beta s').2.ply = s'.ply) :
    (moveValue O timer dc isPv b beta mv iscap moveNum alpha s).2.board_history =
      s.board_history ∧
    (moveValue O timer dc isPv b beta mv iscap moveNum alpha s).2.ply = s.ply := by
  rw [moveValue.eq_def]
  simp only []
  split
  · exact hIH dc le_rfl _ _ _ _
  · set red : ℕ :=
      if 3 ≤ dc + 1 ∧ 2 + 2 * (cond isPv 1 0) ≤ moveNum ∧ iscap = false ∧
          O.isPromo mv = false ∧ O.checkersEmpty (O.play b mv) then
        min (s.lmr (dc + 1) moveNum) (dc + 1 - 2)
      else 0 with hred
    have h1 := hIH (dc + 1 - red - 1) (by omega) (O.play b mv) (-alpha - 1) (-alpha) s
    split
    · have h2 := hIH dc le_rfl (O.play b mv) (-beta) (-alpha)
        (searchInternal O timer (dc + 1 - red - 1) (O.play b mv) (-alpha - 1)
          (-alpha) s).2
      exact ⟨h2.1.trans h1.1, h2.2.trans h1.2⟩
    · exact h1

theorem moveLoopGo_frame {B M : Type} (O : Oracle B M) (timer : ℕ → Bool)
    (dc : ℕ) (isPv : Bool) (b : B) (beta : ℤ)
    (hIH : ∀ (d : ℕ), d ≤ dc → ∀ (b' : B) (alpha beta : ℤ) (s' : SState M),
      (searchInternal O timer d b' alpha beta s').2.board_history =
        s'.board_history ∧
      (searchInternal O timer d b' alpha beta s').2.ply = s'.ply) :
    ∀ (ms : List (M × Bool)) (moveNum : ℕ) (alpha bestValue : ℤ)
      (bestMove : M) (s : SState M),
      (moveLoopGo O timer dc isPv b beta ms moveNum alpha bestValue bestMove
          s).2.2.board_history = s.board_history ∧
      (moveLoopGo O timer dc isPv b beta ms moveNum alpha bestValue bestMove
          s).2.2.ply = s.ply := by
  intro ms
  induction ms with
  | nil =>
    intro moveNum alpha bestValue bestMove s
    rw [moveLoopGo.eq_def]
    exact ⟨rfl, rfl⟩
  | cons p rest ihl =>
    obtain ⟨mv, iscap⟩ := p
    intro moveNum alpha bestValue bestMove s
    rw [moveLoopGo.eq_def]
    have hcv := moveValue_frame O timer dc isPv b beta mv iscap moveNum alpha s hIH
    simp only []
    split <;> split <;>
      first
        | exact ⟨(ihl _ _ _ _ _).1.trans hcv.1, (ihl _ _ _ _ _).2.trans hcv.2⟩
        | (split <;> exact ⟨hcv.1, hcv.2⟩)

theorem nullMovePrune_frame {B M : Type} (O : Oracle B M) (timer : ℕ → Bool)
    (dc : ℕ) (b : B) (beta : ℤ) (doPrune : Bool) (s2 : SState M)
    (hIH : ∀ (d : ℕ), d ≤ dc → ∀ (b' : B) (alpha beta : ℤ) (s' : SState M),
      (searchInternal O timer d b' alpha beta s').2.board_history =
        s'.board_history ∧
      (searchInternal O timer d b' alpha beta s').2.ply = s'.ply) :
    (nullMovePrune O timer dc b beta doPrune s2).2.board_history =
      s2.board_history ∧
    (nullMovePrune O timer dc b beta doPrune s2).2.ply = s2.ply := by
  rw [nullMovePrune.eq_def]
  simp only []
  split
  · split
    · split
      · exact hIH (dc + 1 - 3) (by omega) _ _ _ _
      · exact hIH (dc + 1 - 3) (by omega) _ _ _ _
    · exact ⟨rfl, rfl⟩
  · exact ⟨rfl, rfl⟩

theorem searchMoves_frame {B M : Type} (O : Oracle B M) (timer : ℕ → Bool)
    (dc : ℕ) (isPv : Bool) (alphaOrig : ℤ) (bhash : ℕ) (b : B)
    (alpha beta : ℤ) (ttMove : M) (staticEval : ℤ) (s1 : SState M)
    (hIH : ∀ (d : ℕ), d ≤ dc → ∀ (b' : B) (alpha beta : ℤ) (s' : SState M),
      (searchInternal O timer d b' alpha beta s').2.board_history =
        s'.board_history ∧
      (searchInternal O timer d b' alpha beta s').2.ply = s'.ply) :
    (searchMoves O timer dc isPv alphaOrig bhash b alpha beta ttMove staticEval
        s1).2.board_history = s1.board_history ∧
    (searchMoves O timer dc isPv alphaOrig bhash b alpha beta ttMove staticEval
        s1).2.ply = s1.ply := by
  rw [searchMoves.eq_def]
  simp only []
  have hnp := nullMovePrune_frame O timer dc b beta
    (!isPv && decide (0 < (pushBoardHash bhash s1).ply)) (pushBoardHash bhash s1) hIH
  have hpop : ∀ (s3 : SState M),
      s3.board_history = (pushBoardHash bhash s1).board_history →
      s3.ply = (pushBoardHash bhash s1).ply →
      ((popBoardHash s3).board_history = s1.board_history ∧
        (popBoardHash s3).ply = s1.ply) := by
    intro s3 h1 h2
    unfold popBoardHash
    constructor
    · show s3.board_history.dropLast = s1.board_history
      rw [h1]
      exact List.dropLast_concat
    · show s3.ply - 1 = s1.ply
      have : s3.ply = s1.ply + 1 := h2
      omega
  split
  · next v s3 heq =>
    have hsnd : (nullMovePrune O timer dc b beta
        (!isPv && decide (0 < (pushBoardHash bhash s1).ply))
        (pushBoardHash bhash s1)).2 = s3 := congrArg Prod.snd heq
    exact hpop s3 (by rw [← hsnd]; exact hnp.1) (by rw [← hsnd]; exact hnp.2)
  · next s3 heq =>
    have hsnd : (nullMovePrune O timer dc b beta
        (!isPv && decide (0 < (pushBoardHash bhash s1).ply))
        (pushBoardHash bhash s1)).2 = s3 := congrArg Prod.snd heq
    have hs3b : s3.board_history = (pushBoardHash bhash s1).board_history := by
      rw [← hsnd]; exact hnp.1
    have hs3p : s3.ply = (pushBoardHash bhash s1).ply := by
      rw [← hsnd]; exact hnp.2
    split
    · exact hpop s3 hs3b hs3p
    · have hml := moveLoopGo_frame O timer dc isPv b beta hIH
        (O.allMoves b ttMove (s1.killers (dc + 1)) s1.history) 0 alpha
        (-SCORE_INF) O.nullM s3
      have hfin := finalizeNode_frame bhash (dc + 1) alphaOrig beta
        (moveLoopGo O timer dc isPv b beta
          (O.allMoves b ttMove (s1.killers (dc + 1)) s1.history) 0 alpha
          (-SCORE_INF) O.nullM s3).1
        (moveLoopGo O timer dc isPv b beta
          (O.allMoves b ttMove (s1.killers (dc + 1)) s1.history) 0 alpha
          (-SCORE_INF) O.nullM s3).2.1
        (moveLoopGo O timer dc isPv b beta
          (O.allMoves b ttMove (s1.killers (dc + 1)) s1.history) 0 alpha
          (-SCORE_INF) O.nullM s3).2.2
      constructor
      · rw [hfin.1, hml.1, hs3b]
        exact List.dropLast_concat
      · rw [hfin.2, hml.2, hs3p]
        rfl

theorem searchMain_frame {B M : Type} (O : Oracle B M) (timer : ℕ → Bool)
    (depth : ℕ) (b : B) (alpha beta : ℤ) (s1 : SState M)
    (hIH : ∀ (d : ℕ), d < depth → ∀ (b' : B) (alpha beta : ℤ) (s' : SState M),
      (searchInternal O timer d b' alpha beta s').2.board_history =
        s'.board_history ∧
      (searchInternal O timer d b' alpha beta s').2.ply = s'.ply) :
    (searchMain O timer depth b alpha beta s1).2.board_history =
      s1.board_history ∧
    (searchMain O timer depth b alpha beta s1).2.ply = s1.ply := by
  rw [searchMain.eq_def]
  simp only []
  split
  · exact ⟨rfl, rfl⟩
  · split
    · exact ⟨rfl, rfl⟩
    · split
      · exact ⟨rfl, rfl⟩
      · split
        · exact ⟨rfl, rfl⟩
        · split
          · exact qsearch_frame O timer b _ _ s1
          · next dc _ =>
            exact searchMoves_frame O timer dc _ _ _ b _ _ _ _ s1
              (fun d hd => hIH d (by omega))

/-- C7: every completed call to negamax (`search_internal`) leaves
`board_history` (hence its length) and the ply counter exactly equal to
their values at entry, on every return path — stop flag, repetition draw,
TT cutoff, terminal, depth-0 leaf, null-move cutoff, RFP cutoff and normal
finalize; the recursion keeps them in lock-step: `push_board_hash` extends
the history by one and increments `ply` together, and `pop_board_hash`
undoes the push exactly, so during recursion the history length tracks the
ply relative to the search root. -/
theorem searchInternal_board_history_ply_frame {B M : Type} (O : Oracle B M)
    (timer : ℕ → Bool) (depth : ℕ) (b : B) (alpha beta : ℤ) (s : SState M) :
    ((searchInternal O timer depth b alpha beta s).2.board_history =
        s.board_history ∧
      (searchInternal O timer depth b alpha beta s).2.ply = s.ply) ∧
    (∀ (h : ℕ) (s' : SState M),
      (pushBoardHash h s').board_history.length = s'.board_history.length + 1 ∧
      (pushBoardHash h s').ply = s'.ply + 1 ∧
      popBoardHash (pushBoardHash h s') = s') := by
  constructor
  · have main : ∀ (d : ℕ) (b' : B) (alpha beta : ℤ) (s' : SState M),
        (searchInternal O timer d b' alpha beta s').2.board_history =
          s'.board_history ∧
        (searchInternal O timer d b' alpha beta s').2.ply = s'.ply := by
      intro d
      induction d using Nat.strong_induction_on with
      | _ d ih =>
        intro b' alpha beta s'
        rw [searchInternal.eq_def]
        simp only []
        split
        · exact ⟨rfl, rfl⟩
        · exact searchMain_frame O timer d b' alpha beta _ ih
    exact main depth b alpha beta s
  · intro h s'
    refine ⟨by simp [pushBoardHash], rfl, ?_⟩
    cases s'
    simp [pushBoardHash, popBoardHash, List.dropLast_concat]

/-! ## C3 — the move-order iterator -/

/-- Swapping the same two (in-range) positions twice is the identity: the
source's `swap(i, cur); swap(i, cur)` pair does nothing. -/
theorem listSwap_listSwap {α : Type} [Inhabited α] (l : List α) (i j : ℕ)
    (hi : i < l.length) (hj : j < l.length) :
    listSwap (listSwap l i j) i j = l := by
  have hA : l.getD j default = l[j] := List.getD_eq_getElem l default hj
  have hB : l.getD i default = l[i] := List.getD_eq_getElem l default hi
  have hYi := List.getD_eq_getElem
    ((l.set i (l.getD j default)).set j (l.getD i default)) default
    (show i < ((l.set i (l.getD j default)).set j (l.getD i default)).length by
      simpa using hi)
  have hYj := List.getD_eq_getElem
    ((l.set i (l.getD j default)).set j (l.getD i default)) default
    (show j < ((l.set i (l.getD j default)).set j (l.getD i default)).length by
      simpa using hj)
  apply List.ext_getElem
  · simp [listSwap]
  · intro n hn1 hn2
    simp only [listSwap, hYi, hYj]
    simp only [List.getElem_set, hA, hB]
    split_ifs <;> simp_all

/-- The selection pass is the identity on the buffer. -/
theorem selPassGo_id {α P : Type} [Inhabited α] [Inhabited P]
    (gt : P → P → Bool) :
    ∀ (k : ℕ) (l : List (α × P)) (cur i : ℕ), cur < l.length →
      l.length ≤ i + k → selPassGo gt l cur i = l := by
  intro k
  induction k with
  | zero =>
    intro l cur i hcur hk
    rw [selPassGo]
    rw [dif_neg (by omega)]
  | succ n ih =>
    intro l cur i hcur hk
    rw [selPassGo]
    by_cases hi : i < l.length
    · rw [dif_pos hi]
      simp only []
      by_cases hgt : gt (l.getD i default).2 (l.getD cur default).2 = true
      · rw [if_pos hgt, listSwap_listSwap l i cur hi hcur]
        exact ih l cur (i + 1) hcur (by omega)
      · rw [if_neg hgt]
        exact ih l cur (i + 1) hcur (by omega)
    · rw [dif_neg hi]

theorem selPass_id {α P : Type} [Inhabited α] [Inhabited P]
    (gt : P → P → Bool) (l : List (α × P)) (cur : ℕ) (hcur : cur < l.length) :
    selPass gt l cur = l :=
  selPassGo_id gt l.length l cur (cur + 1) hcur (by omega)

/-- A full run of the iterator from an arbitrary cursor state yields the
tt-move (when still pending) followed by the three buckets in order. -/
theorem cmiRun_spec :
    ∀ (fuel : ℕ) (c : CMC) (dtt : Bool) (pc nc gc : ℕ),
      (cond dtt 0 1) + (c.poscaptures.length - pc) +
        (c.noncaptures.length - gc) + (c.negcaptures.length - nc) ≤ fuel →
      cmiRun fuel ⟨c, dtt, pc, nc, gc⟩ =
        (cond dtt [] [(c.ttmove_capture, c.ttmove.getD default)]) ++
        ((c.poscaptures.drop pc).map (fun p => (true, p.1))) ++
        ((c.noncaptures.drop gc).map (fun p => (false, p.1))) ++
        ((c.negcaptures.drop nc).map (fun p => (true, p.1))) := by
  intro fuel
  induction fuel with
  | zero =>
    intro c dtt pc nc gc hf
    have hdtt : dtt = true := by
      cases dtt
      · simp [cond] at hf
      · rfl
    subst hdtt
    simp only [cond] at hf ⊢
    rw [List.drop_eq_nil_of_le (by omega), List.drop_eq_nil_of_le (by omega),
      List.drop_eq_nil_of_le (by omega)]
    simp [cmiRun]
  | succ n ih =>
    intro c dtt pc nc gc hf
    cases dtt with
    | false =>
      have hnext : cmiNext ⟨c, false, pc, nc, gc⟩ =
          some ((c.ttmove_capture, c.ttmove.getD default),
            ⟨c, true, pc, nc, gc⟩) := by
        rw [cmiNext]
        rw [if_pos rfl]
      rw [cmiRun, hnext]
      show (c.ttmove_capture, c.ttmove.getD default) ::
        cmiRun n ⟨c, true, pc, nc, gc⟩ = _
      rw [ih c true pc nc gc (by simp [cond] at hf ⊢; omega)]
      simp [cond]
    | true =>
      by_cases hpc : pc < c.poscaptures.length
      · have hnext : cmiNext ⟨c, true, pc, nc, gc⟩ =
            some ((true, (c.poscaptures.getD pc default).1),
              ⟨c, true, pc + 1, nc, gc⟩) := by
          rw [cmiNext]
          rw [if_neg (by simp)]
          rw [if_pos hpc]
          rw [selPass_id lexGtZZ c.poscaptures pc hpc]
        rw [cmiRun, hnext]
        show (true, (c.poscaptures.getD pc default).1) ::
          cmiRun n ⟨c, true, pc + 1, nc, gc⟩ = _
        rw [ih c true (pc + 1) nc gc (by simp [cond] at hf ⊢; omega)]
        simp only [cond]
        rw [List.drop_eq_getElem_cons hpc, List.getD_eq_getElem _ _ hpc]
        simp only [List.map_cons, List.nil_append, List.cons_append]
      · by_cases hgc : gc < c.noncaptures.length
        · have hnext : cmiNext ⟨c, true, pc, nc, gc⟩ =
              some ((false, (c.noncaptures.getD gc default).1),
                ⟨c, true, pc, nc, gc + 1⟩) := by
            rw [cmiNext]
            rw [if_neg (by simp)]
            rw [if_neg hpc]
            rw [if_pos hgc]
            rw [selPass_id _ c.noncaptures gc hgc]
          rw [cmiRun, hnext]
          show (false, (c.noncaptures.getD gc default).1) ::
            cmiRun n ⟨c, true, pc, nc, gc + 1⟩ = _
          rw [ih c true pc nc (gc + 1) (by simp [cond] at hf ⊢; omega)]
          simp only [cond]
          rw [List.drop_eq_nil_of_le (by omega),
            List.drop_eq_getElem_cons hgc, List.getD_eq_getElem _ _ hgc]
          simp only [List.map_cons, List.map_nil, List.nil_append,
            List.append_nil, List.cons_append]
        · by_cases hnc : nc < c.negcaptures.length
          · have hnext : cmiNext ⟨c, true, pc, nc, gc⟩ =
                some ((true, (c.negcaptures.getD nc default).1),
                  ⟨c, true, pc, nc + 1, gc⟩) := by
              rw [cmiNext]
              rw [if_neg (by simp)]
              rw [if_neg hpc]
              rw [if_neg hgc]
              rw [if_pos hnc]
              rw [selPass_id _ c.negcaptures nc hnc]
            rw [cmiRun, hnext]
            show (true, (c.negcaptures.getD nc default).1) ::
              cmiRun n ⟨c, true, pc, nc + 1, gc⟩ = _
            rw [ih c true pc (nc + 1) gc (by simp [cond] at hf ⊢; omega)]
            simp only [cond]
            rw [List.drop_eq_nil_of_le (by omega),
              List.drop_eq_nil_of_le (by omega),
              List.drop_eq_getElem_cons hnc, List.getD_eq_getElem _ _ hnc]
            simp only [List.map_cons, List.map_nil, List.nil_append,
              List.append_nil, List.cons_append]
          · have hnext : cmiNext ⟨c, true, pc, nc, gc⟩ = none := by
              rw [cmiNext]
              rw [if_neg (by simp)]
              rw [if_neg hpc]
              rw [if_neg hgc]
              rw [if_neg hnc]
            rw [cmiRun, hnext]
            show ([] : List (Bool × MoveR)) = _
            simp only [cond]
            rw [List.drop_eq_nil_of_le (by omega),
              List.drop_eq_nil_of_le (by omega),
              List.drop_eq_nil_of_le (by omega)]
            simp

/-- The full yield sequence of `ComprehensiveMoveIterator`: the tt-move (if
any) first — capture-flagged by `ttmove_capture` — then the positive
captures, the noncaptures and the negative captures, each in buffer order
(the double swap makes the selection pass a no-op). -/
theorem cmcYields_eq (b : OBoard) (killer : MoveR) (history : ℕ → ℕ)
    (ttm : Option MoveR) :
    cmcYields b killer history ttm =
      (cond (cmcNew b killer history ttm).ttmove.isNone []
        [((cmcNew b killer history ttm).ttmove_capture,
          (cmcNew b killer history ttm).ttmove.getD default)]) ++
      ((cmcNew b killer history ttm).poscaptures.map (fun p => (true, p.1))) ++
      ((cmcNew b killer history ttm).noncaptures.map (fun p => (false, p.1))) ++
      ((cmcNew b killer history ttm).negcaptures.map (fun p => (true, p.1))) := by
  unfold cmcYields
  simp only []
  rw [cmiRun_spec _ _ _ _ _ _ (by cases h : (cmcNew b killer history ttm).ttmove.isNone <;> simp [cond])]
  simp

/-- `map` commutes with push-and-swap-to-front. -/
theorem map_pushSwapFront {α β : Type} (f : α → β) (l : List α) (x : α) :
    (pushSwapFront l x).map f = pushSwapFront (l.map f) (f x) := by
  cases l <;> simp [pushSwapFront]

/-- Push-and-swap-to-front is a permutation of push-at-the-back. -/
theorem pushSwapFront_perm {α : Type} (l : List α) (x : α) :
    List.Perm (pushSwapFront l x) (l ++ [x]) := by
  cases l with
  | nil => exact List.Perm.refl _
  | cons y rest =>
    show List.Perm (x :: (rest ++ [y])) ((y :: rest) ++ [x])
    exact (List.Perm.cons x (@List.perm_append_comm _ rest [y])).trans
      ((List.Perm.swap y x rest).trans
        (List.Perm.cons y (@List.perm_append_comm _ [x] rest)))

theorem count_pushSwapFront {α : Type} [DecidableEq α] (l : List α) (x a : α) :
    List.count a (pushSwapFront l x) = List.count a (l ++ [x]) :=
  (pushSwapFront_perm l x).count_eq a

/-- Collecting one move adds exactly that move to the bucket multiset. -/
theorem accMoves_collectMove (b : OBoard) (killer : MoveR) (history : ℕ → ℕ)
    (srcPiece : Piece) (srcColor : Color) (srcEval : ℤ)
    (acc : CMCAcc) (mv : MoveR) :
    List.Perm (accMoves (collectMove b killer history srcPiece srcColor srcEval acc mv))
      (accMoves acc ++ [mv]) := by
  rw [List.perm_iff_count]
  intro a
  simp only [collectMove, accMoves]
  split_ifs with h1 h2 h3 <;>
    simp only [map_pushSwapFront, List.map_append, List.map_cons, List.map_nil,
      List.count_append, count_pushSwapFront, List.count_cons, List.count_nil] <;>
    omega

/-- Folding the collector over a move list appends exactly those moves to
the bucket multiset. -/
theorem accMoves_foldl_collectMove (b : OBoard) (killer : MoveR) (history : ℕ → ℕ)
    (srcPiece : Piece) (srcColor : Color) (srcEval : ℤ) :
    ∀ (l : List MoveR) (acc : CMCAcc),
      List.Perm
        (accMoves (l.foldl (collectMove b killer history srcPiece srcColor srcEval) acc))
        (accMoves acc ++ l) := by
  intro l
  induction l with
  | nil =>
    intro acc
    rw [List.foldl_nil, List.append_nil]
  | cons mv l ih =>
    intro acc
    rw [List.foldl_cons]
    refine (ih _).trans ?_
    refine ((accMoves_collectMove b killer history srcPiece srcColor srcEval
      acc mv).append_right l).trans ?_
    rw [List.append_assoc, List.singleton_append]

/-- Folding over all `generate_moves` groups collects exactly the flattened
legal-move list into the buckets. -/
theorem accMoves_foldl_collectGroup (b : OBoard) (killer : MoveR) (history : ℕ → ℕ) :
    ∀ (gs : List (ℕ × List MoveR)) (acc : CMCAcc),
      List.Perm (accMoves (gs.foldl (collectGroup b killer history) acc))
        (accMoves acc ++ (gs.map Prod.snd).flatten) := by
  intro gs
  induction gs with
  | nil =>
    intro acc
    rw [List.foldl_nil, List.map_nil, List.flatten_nil, List.append_nil]
  | cons g gs ih =>
    intro acc
    rw [List.foldl_cons]
    refine (ih _).trans ?_
    refine ((accMoves_foldl_collectMove b killer history
      ((b.pieceOn g.1).getD Piece.pawn) ((b.colorOn g.1).getD Color.white)
      (pieceValue ((b.pieceOn g.1).getD Piece.pawn)) g.2 acc).append_right _).trans ?_
    rw [List.map_cons, List.flatten_cons, ← List.append_assoc]

/-- The three buckets of a fresh `ComprehensiveMoveCollector` hold exactly
the legal moves of the board, as a multiset. -/
theorem accMoves_cmcNew (b : OBoard) (killer : MoveR) (history : ℕ → ℕ)
    (ttm : Option MoveR) :
    List.Perm
      ((cmcNew b killer history ttm).poscaptures.map Prod.fst ++
        (cmcNew b killer history ttm).negcaptures.map Prod.fst ++
        (cmcNew b killer history ttm).noncaptures.map Prod.fst)
      (allMovesList b) := by
  have h := accMoves_foldl_collectGroup b killer history b.groups ([], [], [])
  simpa [accMoves, cmcNew, allMovesList] using h

/-- C3, amended: whenever a tt-move is supplied it is yielded first
(legal or not), and the remaining yields are a permutation of the board's
legal moves; in particular a legal tt-move is yielded twice, refuting the
claimed exactly-once property (see the counterexample below). -/
theorem cmcYields_legal_moves (b : OBoard) (killer : MoveR)
    (history : ℕ → ℕ) (ttm : Option MoveR) :
    ∃ rest : List MoveR,
      (cmcYields b killer history ttm).map Prod.snd = ttm.toList ++ rest ∧
      List.Perm rest (allMovesList b) := by
  refine ⟨(cmcNew b killer history ttm).poscaptures.map Prod.fst ++
      (cmcNew b killer history ttm).noncaptures.map Prod.fst ++
      (cmcNew b killer history ttm).negcaptures.map Prod.fst, ?_, ?_⟩
  · have htt : (cmcNew b killer history ttm).ttmove = ttm := rfl
    rw [cmcYields_eq, htt]
    have hpos : ((cmcNew b killer history ttm).poscaptures.map
        (fun p => ((true : Bool), p.1))).map Prod.snd =
        (cmcNew b killer history ttm).poscaptures.map Prod.fst := by
      rw [List.map_map]
      exact List.map_congr_left fun a _ => rfl
    have hnon : ((cmcNew b killer history ttm).noncaptures.map
        (fun p => ((false : Bool), p.1))).map Prod.snd =
        (cmcNew b killer history ttm).noncaptures.map Prod.fst := by
      rw [List.map_map]
      exact List.map_congr_left fun a _ => rfl
    have hneg : ((cmcNew b killer history ttm).negcaptures.map
        (fun p => ((true : Bool), p.1))).map Prod.snd =
        (cmcNew b killer history ttm).negcaptures.map Prod.fst := by
      rw [List.map_map]
      exact List.map_congr_left fun a _ => rfl
    cases ttm with
    | none =>
      simp only [Option.isNone_none, Bool.cond_true, Option.toList_none,
        List.nil_append, List.map_append, List.map_nil, hpos, hnon, hneg]
    | some m =>
      simp only [Option.isNone_some, Bool.cond_false, Option.toList_some,
        Option.getD_some, List.map_append, List.map_cons, List.map_nil,
        List.singleton_append, List.cons_append, List.nil_append,
        hpos, hnon, hneg]
  · refine List.Perm.trans ?_ (accMoves_cmcNew b killer history ttm)
    rw [List.perm_iff_count]
    intro a
    simp only [List.count_append]
    omega

/-- Counterexample to C3 as claimed: on `obExample` the move `⟨0, 1, none⟩`
is legal, and when it is supplied as the tt-move the iterator yields it
twice — once as the tt-move and once again from the noncapture bucket. -/
theorem cmcYields_ttmove_duplicated :
    (⟨0, 1, none⟩ : MoveR) ∈ allMovesList obExample ∧
    List.count (⟨0, 1, none⟩ : MoveR)
      ((cmcYields obExample ⟨9, 9, none⟩ (fun _ => 0) (some ⟨0, 1, none⟩)).map
        Prod.snd) = 2 := by
  refine ⟨by decide, ?_⟩
  rw [cmcYields_eq]
  decide

end Engine
